import Mathlib

/-!
Shallow embedding of the report-synthesis core of the whiteboard backend
(`backend/app/routers/report.py` together with the data rows it consumes and
the LLM helper of `backend/app/services/llm.py`), and proofs of the spec's
claims about it.

Conventions of the embedding:
* machine rows become Lean structures holding exactly the fields the core reads;
* the recursive Python `dfs` becomes a fuel-indexed total function, with the
  fuel proved sufficient, so the fuel-exhausted branch is unreachable;
* Python exceptions become `Option`/`Except` results: the `KeyError` of
  `node_map[node_id]` and the `TypeError` of joining a list containing `None`
  are explicit error values;
* the OpenAI-backed helper functions, which catch every exception and return
  `None` on failure, become an oracle of type `String → Option String`;
* the prompts actually submitted to the generation capability are collected in
  a call trace so that claims about which calls are issued are statable.
-/

namespace WhiteboardAI

/-- A row of the `nodes` table as consumed by report generation
(`app/models/node.py`): primary key, owning whiteboard, name, nullable text
summary and the target ids of its outgoing connections
(`node.connections[k].target_node_id`). -/
structure NodeRec where
  id : Nat
  whiteboard_id : Nat
  name : String
  summary : Option String
  conns : List Nat
  deriving Repr, DecidableEq, Inhabited

/-- A row of the `subjects` table as consumed by report generation: owning
whiteboard, name and nullable summary (fields per `app/schemas/subject.py` and
the attribute accesses in `app/routers/report.py`). -/
structure SubjectRec where
  id : Nat
  whiteboard_id : Nat
  name : String
  summary : Option String
  deriving Repr, DecidableEq, Inhabited

/-- A row of the `whiteboards` table (`app/models/whiteboard.py`); only the id
matters to report generation. -/
structure WhiteboardRec where
  id : Nat
  name : String
  deriving Repr, DecidableEq, Inhabited

/-- A row of the `reports` table (`app/models/report.py`): title is non-null,
introduction/body/conclusion are nullable text columns. -/
structure ReportRec where
  whiteboard_id : Nat
  title : String
  introduction : Option String
  body : Option String
  conclusion : Option String
  deriving Repr, DecidableEq, Inhabited

/-- The database state visible to the report router. -/
structure DB where
  whiteboards : List WhiteboardRec
  subjects : List SubjectRec
  nodes : List NodeRec
  reports : List ReportRec
  deriving Repr, DecidableEq, Inhabited

/-- The text-generation capability: `LLMHelper.generate_introduction` and
`LLMHelper.generate_body` catch every exception and return `None` on failure
(`app/services/llm.py`), hence `String → Option String`. -/
structure Oracle where
  genIntro : String → Option String
  genBody : String → Option String

/-- Python truthiness of an `Optional[str]`: `None` and `""` are falsy.  Used
by the comprehensions `... if subject.summary` and `... if node.summary`. -/
def truthy : Option String → Bool
  | none => false
  | some s => s ≠ ""

/-- The string interpolated for a truthy `Optional[str]` (always the payload). -/
def optVal : Option String → String
  | none => ""
  | some s => s

/-- Python `str()` as applied by f-string interpolation to an `Optional[str]`:
`None` renders as the four-letter string `"None"`. -/
def pyStr : Option String → String
  | none => "None"
  | some s => s

/-- The directed connection edges contributed by a node list: for each node,
one `(node.id, target)` pair per outgoing connection, in iteration order
(the two nested `for` loops of `group_nodes_by_relevance`). -/
def edgesOf (nodes : List NodeRec) : List (Nat × Nat) :=
  (nodes.map (fun n => n.conns.map (fun t => (n.id, t)))).flatten

/-- Set-insert on an insertion-ordered list: model of `set.add`. -/
def insertOnce (l : List Nat) (y : Nat) : List Nat :=
  if y ∈ l then l else l ++ [y]

/-- The adjacency list entry for `x` built from the edge list: for every edge
`(a, b)` the code runs `adjacency_list[a].add(b)` and `adjacency_list[b].add(a)`,
so `x` collects `b` whenever `a = x` and `a` whenever `b = x`.  The
`defaultdict(set)` yields the empty set for ids never mentioned. -/
def neighbors (edges : List (Nat × Nat)) (x : Nat) : List Nat :=
  edges.foldl
    (fun acc e =>
      let acc1 := if e.1 = x then insertOnce acc e.2 else acc
      if e.2 = x then insertOnce acc1 e.1 else acc1)
    []

/-- The recursive inner `dfs` of `group_nodes_by_relevance`, tracking only the
shared `visited` structure.  Python's `visited` is a set and `group` a list
filled at the same moments; since insertion order is what the group records,
we keep `visited` as an insertion-ordered duplicate-free list and recover each
group as the segment appended during one top-level call.  The extra `fuel`
argument makes the recursion structural; it is instantiated with a bound
proved large enough that the `0` branch is never taken. -/
def dfs (adj : Nat → List Nat) : Nat → Nat → List Nat → List Nat
  | 0, _, visited => visited
  | fuel + 1, n, visited =>
    if n ∈ visited then visited
    else (adj n).foldl (fun acc nb => dfs adj fuel nb acc) (visited ++ [n])

/-- The fold of `dfs` over a worklist of ids (the `for neighbor in
adjacency_list[node_id]` loop), named so the proofs can recurse on the list. -/
def dfsFold (adj : Nat → List Nat) (fuel : Nat) (l : List Nat) (acc : List Nat) :
    List Nat :=
  l.foldl (fun acc nb => dfs adj fuel nb acc) acc

/-- The top-level loop of `group_nodes_by_relevance`: iterate the ids in input
order, start a `dfs` at each unvisited id, and emit the ids newly visited by
that call as one group. -/
def groupLoop (adj : Nat → List Nat) (fuel : Nat) :
    List Nat → List Nat → List (List Nat) → List Nat × List (List Nat)
  | [], visited, groups => (visited, groups)
  | n :: rest, visited, groups =>
    if n ∈ visited then groupLoop adj fuel rest visited groups
    else
      let visited' := dfs adj fuel n visited
      groupLoop adj fuel rest visited' (groups ++ [visited'.drop visited.length])

/-- `node_map = {node.id: node for node in nodes}` looked up at `i`: a Python
dict comprehension keeps the last row for a repeated key, hence the left fold. -/
def nodeMapFind (nodes : List NodeRec) (i : Nat) : Option NodeRec :=
  nodes.foldl (fun acc n => if n.id = i then some n else acc) none

/-- Look every id of a group up in `node_map`; `none` models the `KeyError`
raised by `node_map[node_id]` when an id is outside the given node list. -/
def mapLookup (nodes : List NodeRec) : List Nat → Option (List NodeRec)
  | [] => some []
  | i :: rest =>
    match nodeMapFind nodes i with
    | none => none
    | some n => (mapLookup nodes rest).map (fun l => n :: l)

/-- Look up all groups; `none` propagates a `KeyError` from any group. -/
def groupsLookup (nodes : List NodeRec) : List (List Nat) → Option (List (List NodeRec))
  | [] => some []
  | g :: rest =>
    match mapLookup nodes g with
    | none => none
    | some g' => (groupsLookup nodes rest).map (fun l => g' :: l)

/-- Every id mentioned by the input: the node ids and both endpoints of every
edge.  Its length bounds how many ids a run of the traversal can ever visit,
which makes `length + 1` a sufficient fuel. -/
def idUniverse (nodes : List NodeRec) : List Nat :=
  nodes.map (fun n => n.id) ++
    ((edgesOf nodes).map (fun e => e.1)) ++ ((edgesOf nodes).map (fun e => e.2))

/-- The ids of the input nodes in input order. -/
def inputIds (nodes : List NodeRec) : List Nat :=
  nodes.map (fun n => n.id)

/-- The adjacency function the clusterer builds for a node list. -/
def adjOf (nodes : List NodeRec) : Nat → List Nat :=
  neighbors (edgesOf nodes)

/-- The fuel used by the embedded clusterer. -/
def clusterFuel (nodes : List NodeRec) : Nat :=
  (idUniverse nodes).length + 1

/-- The id-level groups emitted by the traversal, in emission order. -/
def idClusters (nodes : List NodeRec) : List (List Nat) :=
  (groupLoop (adjOf nodes) (clusterFuel nodes) (inputIds nodes) [] []).2

/-- The full first-visit order of the traversal: the final `visited` structure
read as the insertion-ordered list it is built as. -/
def visitOrder (nodes : List NodeRec) : List Nat :=
  (groupLoop (adjOf nodes) (clusterFuel nodes) (inputIds nodes) [] []).1

/-- `group_nodes_by_relevance` of `app/routers/report.py`: build the
undirected adjacency structure, run a depth-first traversal from every
unvisited node in input order, and return the groups of node rows; `none`
models the `KeyError` escaping the function when a connection references an
id outside the node list. -/
def group_nodes_by_relevance (nodes : List NodeRec) : Option (List (List NodeRec)) :=
  groupsLookup nodes (idClusters nodes)

/-- One undirected adjacency step of the clusterer's graph. -/
def Step (adj : Nat → List Nat) (x y : Nat) : Prop :=
  y ∈ adj x

/-- Reachability along adjacency steps: the "path of connections (in either
direction)" of the spec, as the reflexive-transitive closure of `Step`. -/
def Reach (adj : Nat → List Nat) : Nat → Nat → Prop :=
  Relation.ReflTransGen (Step adj)

/-- The adjacency function is symmetric (membership-wise), as the double
insertion in `group_nodes_by_relevance` makes it. -/
def Sym (adj : Nat → List Nat) : Prop :=
  ∀ x y, y ∈ adj x → x ∈ adj y

/-- Every adjacency value lies in the finite universe `U`. -/
def ClosedUnder (adj : Nat → List Nat) (U : Finset Nat) : Prop :=
  ∀ x y, y ∈ adj x → y ∈ U

/-- A visited list closed under adjacency: no edge leaves it. -/
def VClosed (adj : Nat → List Nat) (v : List Nat) : Prop :=
  ∀ x ∈ v, ∀ y ∈ adj x, y ∈ v

/-- `w` extends `v` by appending: the only way `dfs` changes `visited`. -/
def Extends (v w : List Nat) : Prop :=
  ∃ d, w = v ++ d

/-- Total lookup used to phrase what a successful `node_map` lookup returns. -/
def lookupD (nodes : List NodeRec) (i : Nat) : NodeRec :=
  (nodeMapFind nodes i).getD default

/-- The errors a report request can end in. `keyError` is the `KeyError` of
`node_map[...]`, `typeError` the `TypeError` of `"\n\n".join` on a list
containing `None`. -/
inductive ReportError
  | whiteboardNotFound
  | noSubjects
  | keyError
  | typeError
  deriving Repr, DecidableEq

/-- What one invocation of the report endpoint produces: the HTTP-level
result, the database state afterwards, and the trace of prompts submitted to
the generation capability, in submission order. -/
structure ReportOutcome where
  result : Except ReportError ReportRec
  db : DB
  calls : List String
  deriving Repr

/-- The introduction prompt built from a subject list (lines 45-46 of
`report.py`): one `"name: summary"` line per subject with truthy summary. -/
def introPromptOf (subjects : List SubjectRec) : String :=
  "Create an introduction for a report summarizing the following topics:\n\n" ++
    String.intercalate "\n"
      ((subjects.filter (fun s => truthy s.summary)).map
        (fun s => s.name ++ ": " ++ optVal s.summary))

/-- The body-section prompt built from one group (lines 56-57 of `report.py`). -/
def sectionPrompt (group : List NodeRec) : String :=
  "Summarize and explain the following concepts:\n\n" ++
    String.intercalate "\n"
      ((group.filter (fun n => truthy n.summary)).map
        (fun n => n.name ++ ": " ++ optVal n.summary))

/-- The conclusion prompt (line 65 of `report.py`); note the f-string renders a
failed (`None`) introduction as the string `"None"`. -/
def conclusionPromptOf (introduction : Option String) (report_body : String) : String :=
  "Based on this report:\n" ++ pyStr introduction ++ "\n\n" ++ report_body ++
    "\n\nWrite a strong conclusion."

/-- `"\n\n".join(sections)` where `sections` may contain `None`: Python raises
`TypeError` on any non-string element, modeled as `none`. -/
def seqOptions : List (Option String) → Option (List String)
  | [] => some []
  | none :: _ => none
  | some s :: rest => (seqOptions rest).map (fun l => s :: l)

/-- `generate_report` of `app/routers/report.py`, step for step: fetch the
whiteboard (404 if absent), fetch its subjects (404 if none), submit the
introduction prompt, cluster the whiteboard's nodes, submit one body prompt
per cluster (no cluster is skipped), join the sections (a `None` section makes
the join raise), submit the conclusion prompt, and persist exactly one new
Report row.  The `now` argument stands for the formatted
`datetime.now()` timestamp of the title. -/
def generate_report (db : DB) (o : Oracle) (whiteboard_id : Nat) (now : String) :
    ReportOutcome :=
  if (db.whiteboards.find? (fun w => w.id == whiteboard_id)).isNone then
    ⟨.error .whiteboardNotFound, db, []⟩
  else
    let subjects := db.subjects.filter (fun s => s.whiteboard_id == whiteboard_id)
    if subjects.isEmpty then
      ⟨.error .noSubjects, db, []⟩
    else
      let introduction_prompt := introPromptOf subjects
      let introduction := o.genIntro introduction_prompt
      let all_nodes := db.nodes.filter (fun n => n.whiteboard_id == whiteboard_id)
      match group_nodes_by_relevance all_nodes with
      | none => ⟨.error .keyError, db, [introduction_prompt]⟩
      | some node_groups =>
        let section_prompts := node_groups.map sectionPrompt
        let sections := section_prompts.map o.genBody
        match seqOptions sections with
        | none => ⟨.error .typeError, db, introduction_prompt :: section_prompts⟩
        | some secs =>
          let report_body := String.intercalate "\n\n" secs
          let conclusion_prompt := conclusionPromptOf introduction report_body
          let conclusion := o.genBody conclusion_prompt
          let new_report : ReportRec :=
            { whiteboard_id := whiteboard_id
              title := "Report - " ++ now
              introduction := introduction
              body := some report_body
              conclusion := conclusion }
          ⟨.ok new_report, { db with reports := db.reports ++ [new_report] },
            (introduction_prompt :: section_prompts) ++ [conclusion_prompt]⟩

/-! ### Small lemmas about the synthesis pipeline -/

lemma seqOptions_eq_none {l : List (Option String)} (h : none ∈ l) :
    seqOptions l = none := by
  induction l with
  | nil => cases h
  | cons o rest ih =>
    cases h with
    | head => simp [seqOptions]
    | tail _ h' =>
      cases o with
      | none => rfl
      | some s => simp [seqOptions, ih h']

lemma seqOptions_map_some (f : String → String) (l : List String) :
    seqOptions (l.map (fun s => some (f s))) = some (l.map f) := by
  induction l with
  | nil => rfl
  | cons s rest ih => simp [seqOptions, ih]

/-! ### Claims settled by concrete evaluation -/

/-- Claim C3 (code behavior at the failing input): a single node with id 1
whose connection references the unknown id 2 makes the clusterer raise a
`KeyError` (modeled `none`), whereas with the malformed edge absent the same
node yields its singleton cluster — so the edge is not ignored as a no-op. -/
theorem c3_unknown_edge_keyerror :
    group_nodes_by_relevance [⟨1, 1, "node1", some "A", [2]⟩] = none ∧
    group_nodes_by_relevance [⟨1, 1, "node1", some "A", []⟩] =
      some [[⟨1, 1, "node1", some "A", []⟩]] ∧
    group_nodes_by_relevance [] = some [] := by
  refine ⟨rfl, rfl, rfl⟩

/-- Claim C8: the clusterer is a deterministic function of its input — two
runs on the same node list give the same group partition, the same internal
orders and the same emission order.  In the embedding the clusterer is a pure
function, so determinism is definitional. -/
theorem c8_clusterer_deterministic (nodes : List NodeRec) :
    group_nodes_by_relevance nodes = group_nodes_by_relevance nodes ∧
    idClusters nodes = idClusters nodes ∧
    visitOrder nodes = visitOrder nodes :=
  ⟨rfl, rfl, rfl⟩

/-- Claim C1, counterexample: on a whiteboard with one subject and one
summarized node, an oracle whose body-generation call fails makes the
synthesis end in the `TypeError` of `"\n\n".join([None])` with no Report
persisted — the failed section is not treated as an empty string and the
synthesis does not complete. -/
theorem c1_counterexample :
    (generate_report ⟨[⟨1, "wb"⟩], [⟨1, 1, "subj", some "X"⟩],
          [⟨1, 1, "node1", some "A", []⟩], []⟩
        ⟨fun _ => some "I", fun _ => none⟩ 1 "t").result = .error .typeError ∧
    (generate_report ⟨[⟨1, "wb"⟩], [⟨1, 1, "subj", some "X"⟩],
          [⟨1, 1, "node1", some "A", []⟩], []⟩
        ⟨fun _ => some "I", fun _ => none⟩ 1 "t").db.reports = [] := by
  refine ⟨rfl, rfl⟩

/-- Claim C2, counterexample: a cluster consisting of one node without a
summary (empty concatenation) still produces a generation call — the prompt
with empty content block is submitted — and its returned section still enters
the body, so the cluster is not skipped. -/
theorem c2_counterexample :
    (generate_report ⟨[⟨1, "wb"⟩], [⟨1, 1, "subj", some "X"⟩],
          [⟨5, 1, "node5", none, []⟩], []⟩
        ⟨fun _ => some "I", fun _ => some "B"⟩ 1 "t").calls =
      ["Create an introduction for a report summarizing the following topics:\n\nsubj: X",
        "Summarize and explain the following concepts:\n\n",
        "Based on this report:\nI\n\nB\n\nWrite a strong conclusion."] ∧
    ((generate_report ⟨[⟨1, "wb"⟩], [⟨1, 1, "subj", some "X"⟩],
          [⟨5, 1, "node5", none, []⟩], []⟩
        ⟨fun _ => some "I", fun _ => some "B"⟩ 1 "t").result.toOption.map
      (fun r => r.body)) = some (some "B") := by
  refine ⟨rfl, rfl⟩

/-! ### Precondition and frame claims about `generate_report` -/

/-- Every run of `generate_report` either fails with the database untouched,
or succeeds and appends exactly the returned row to the report table. -/
lemma generate_report_shape (db : DB) (o : Oracle) (wid : Nat) (now : String) :
    (∃ e, (generate_report db o wid now).result = .error e ∧
      (generate_report db o wid now).db = db) ∨
    (∃ r, (generate_report db o wid now).result = .ok r ∧
      (generate_report db o wid now).db =
        ⟨db.whiteboards, db.subjects, db.nodes, db.reports ++ [r]⟩) := by
  simp only [generate_report]
  split
  · exact Or.inl ⟨_, rfl, rfl⟩
  · split
    · exact Or.inl ⟨_, rfl, rfl⟩
    · split
      · exact Or.inl ⟨_, rfl, rfl⟩
      · split
        · exact Or.inl ⟨_, rfl, rfl⟩
        · exact Or.inr ⟨_, rfl, rfl⟩

/-- Claim C7: if the referenced whiteboard does not exist, or it has zero
subjects, the request fails with the corresponding checked error before any
generation call is made and with no side effects: the database is unchanged
and the call trace is empty. -/
theorem c7_precondition_failures (db : DB) (o : Oracle) (wid : Nat) (now : String)
    (h : db.whiteboards.find? (fun w => w.id == wid) = none ∨
      db.subjects.filter (fun s => s.whiteboard_id == wid) = []) :
    ((generate_report db o wid now).result = .error .whiteboardNotFound ∨
      (generate_report db o wid now).result = .error .noSubjects) ∧
    (generate_report db o wid now).db = db ∧
    (generate_report db o wid now).calls = [] := by
  unfold generate_report
  by_cases hw : (db.whiteboards.find? (fun w => w.id == wid)).isNone
  · simp [hw]
  · rcases h with h | h
    · rw [Option.isNone_iff_eq_none] at hw
      exact absurd h hw
    · simp [hw, h]

/-- Claim C7, witness: a database whose only whiteboard has no subjects. -/
theorem c7_precondition_failures_witness :
    (generate_report ⟨[⟨1, "wb"⟩], [], [], []⟩ ⟨fun _ => some "I", fun _ => some "B"⟩ 1 "t").result
        = .error .noSubjects ∧
    (generate_report ⟨[⟨1, "wb"⟩], [], [], []⟩ ⟨fun _ => some "I", fun _ => some "B"⟩ 1 "t").db
        = ⟨[⟨1, "wb"⟩], [], [], []⟩ ∧
    (generate_report ⟨[⟨1, "wb"⟩], [], [], []⟩ ⟨fun _ => some "I", fun _ => some "B"⟩ 1 "t").calls
        = [] := by
  have h := c7_precondition_failures ⟨[⟨1, "wb"⟩], [], [], []⟩
    ⟨fun _ => some "I", fun _ => some "B"⟩ 1 "t" (Or.inr rfl)
  exact ⟨rfl, h.2.1, h.2.2⟩

/-- Claim C9: every successful synthesis appends exactly one new Report row,
and leaves the whiteboards, subjects and nodes of the database unchanged. -/
theorem c9_persists_one_report (db : DB) (o : Oracle) (wid : Nat) (now : String)
    (r : ReportRec) (h : (generate_report db o wid now).result = .ok r) :
    (generate_report db o wid now).db.reports = db.reports ++ [r] ∧
    (generate_report db o wid now).db.whiteboards = db.whiteboards ∧
    (generate_report db o wid now).db.subjects = db.subjects ∧
    (generate_report db o wid now).db.nodes = db.nodes := by
  rcases generate_report_shape db o wid now with ⟨e, he, _⟩ | ⟨r', hr', hdb⟩
  · rw [h] at he
    cases he
  · rw [h] at hr'
    cases hr'
    rw [hdb]
    exact ⟨rfl, rfl, rfl, rfl⟩

/-- Claim C9, witness: a concrete successful synthesis. -/
theorem c9_persists_one_report_witness :
    (generate_report ⟨[⟨1, "wb"⟩], [⟨1, 1, "subj", some "X"⟩],
        [⟨1, 1, "node1", some "A", []⟩], []⟩
      ⟨fun _ => some "I", fun _ => some "B"⟩ 1 "t").db.reports =
      [] ++ [⟨1, "Report - t", some "I",
        some "B", some "B"⟩] := by
  exact (c9_persists_one_report ⟨[⟨1, "wb"⟩], [⟨1, 1, "subj", some "X"⟩],
      [⟨1, 1, "node1", some "A", []⟩], []⟩
    ⟨fun _ => some "I", fun _ => some "B"⟩ 1 "t"
    ⟨1, "Report - t", some "I", some "B", some "B"⟩ rfl).1

/-- Claim C10: the empty-input precondition only tests that the subject list
is non-empty.  A whiteboard that exists and has subjects, all of whose
summaries are `None` or `""`, does not fail with the no-subjects error, and
the introduction call is still issued with an empty subject-summaries block in
its prompt. -/
theorem c10_empty_summaries_still_proceeds (db : DB) (o : Oracle) (wid : Nat)
    (now : String)
    (hw : (db.whiteboards.find? (fun w => w.id == wid)).isNone = false)
    (hs : db.subjects.filter (fun s => s.whiteboard_id == wid) ≠ [])
    (hall : ∀ s ∈ db.subjects.filter (fun s => s.whiteboard_id == wid),
      truthy s.summary = false) :
    (generate_report db o wid now).result ≠ .error .noSubjects ∧
    (generate_report db o wid now).calls.head? =
      some "Create an introduction for a report summarizing the following topics:\n\n" := by
  have hfilter : (db.subjects.filter (fun s => s.whiteboard_id == wid)).filter
      (fun s => truthy s.summary) = [] :=
    List.filter_eq_nil_iff.mpr (by simpa using hall)
  have hprompt : introPromptOf (db.subjects.filter (fun s => s.whiteboard_id == wid)) =
      "Create an introduction for a report summarizing the following topics:\n\n" := by
    rw [introPromptOf, hfilter]
    rfl
  unfold generate_report
  rw [hw]
  simp only [Bool.false_eq_true, if_false]
  rw [if_neg (by simpa [List.isEmpty_iff] using hs)]
  rw [hprompt]
  split
  · exact ⟨by simp, rfl⟩
  · split
    · exact ⟨by simp, rfl⟩
    · exact ⟨by simp, rfl⟩

/-- Claim C10, witness: one subject with a `None` summary and one with an
empty-string summary. -/
theorem c10_empty_summaries_still_proceeds_witness :
    (generate_report ⟨[⟨1, "wb"⟩], [⟨1, 1, "s1", none⟩, ⟨2, 1, "s2", some ""⟩], [], []⟩
      ⟨fun _ => some "I", fun _ => some "B"⟩ 1 "t").result ≠ .error .noSubjects ∧
    (generate_report ⟨[⟨1, "wb"⟩], [⟨1, 1, "s1", none⟩, ⟨2, 1, "s2", some ""⟩], [], []⟩
      ⟨fun _ => some "I", fun _ => some "B"⟩ 1 "t").calls.head? =
      some "Create an introduction for a report summarizing the following topics:\n\n" := by
  exact c10_empty_summaries_still_proceeds
    ⟨[⟨1, "wb"⟩], [⟨1, 1, "s1", none⟩, ⟨2, 1, "s2", some ""⟩], [], []⟩
    ⟨fun _ => some "I", fun _ => some "B"⟩ 1 "t" rfl (by decide) (by decide)

/-! ### The amended failure-policy and body-phase claims -/

/-- Claim C1, amended: on an existing whiteboard with at least one subject and
a cluster phase that succeeds, (a) if any body-section generation call fails,
its `None` output is not omitted but crashes the body join with a `TypeError`,
so the synthesis does not complete and no Report is persisted; (b) if every
body-section call succeeds and only the conclusion call fails, the synthesis
completes and persists a Report carrying the generated introduction and body
and a `None` (null) conclusion — not an empty string; (c) if the introduction
call fails and every body-section call succeeds, the synthesis still completes
and persists a Report with a `None` (null) introduction, the conclusion being
whatever the oracle returns for the conclusion prompt — into which the failed
introduction is interpolated as the literal string `"None"`. -/
theorem c1_amended_failure_policy (db : DB) (o : Oracle) (wid : Nat) (now : String)
    (gs : List (List NodeRec))
    (hw : (db.whiteboards.find? (fun w => w.id == wid)).isNone = false)
    (hs : db.subjects.filter (fun s => s.whiteboard_id == wid) ≠ [])
    (hg : group_nodes_by_relevance (db.nodes.filter (fun n => n.whiteboard_id == wid)) =
      some gs) :
    (none ∈ (gs.map sectionPrompt).map o.genBody →
      (generate_report db o wid now).result = .error .typeError ∧
      (generate_report db o wid now).db = db) ∧
    (∀ intro secs,
      o.genIntro (introPromptOf (db.subjects.filter (fun s => s.whiteboard_id == wid))) =
        some intro →
      seqOptions ((gs.map sectionPrompt).map o.genBody) = some secs →
      o.genBody (conclusionPromptOf (some intro) (String.intercalate "\n\n" secs)) = none →
      ∃ r, (generate_report db o wid now).result = .ok r ∧
        r.introduction = some intro ∧
        r.body = some (String.intercalate "\n\n" secs) ∧
        r.conclusion = none ∧
        (generate_report db o wid now).db.reports = db.reports ++ [r]) ∧
    (∀ secs,
      o.genIntro (introPromptOf (db.subjects.filter (fun s => s.whiteboard_id == wid))) =
        none →
      seqOptions ((gs.map sectionPrompt).map o.genBody) = some secs →
      ∃ r, (generate_report db o wid now).result = .ok r ∧
        r.introduction = none ∧
        r.body = some (String.intercalate "\n\n" secs) ∧
        r.conclusion =
          o.genBody (conclusionPromptOf none (String.intercalate "\n\n" secs)) ∧
        (generate_report db o wid now).db.reports = db.reports ++ [r]) := by
  simp only [generate_report, hw, Bool.false_eq_true, if_false, hg]
  rw [if_neg (by simpa [List.isEmpty_iff] using hs)]
  refine ⟨?_, ?_, ?_⟩
  · intro hnone
    rw [seqOptions_eq_none hnone]
    exact ⟨rfl, rfl⟩
  · intro intro secs hi hsec hc
    rw [hi, hsec]
    simp only
    rw [hc]
    exact ⟨_, rfl, rfl, rfl, rfl, rfl⟩
  · intro secs hi hsec
    rw [hi, hsec]
    exact ⟨_, rfl, rfl, rfl, rfl, rfl⟩

/-- Claim C1, amended, witness: on one summarized node, first with the body
call succeeding and the conclusion call failing (null conclusion persisted),
then with the introduction call failing and everything else succeeding (null
introduction persisted, synthesis still completes). -/
theorem c1_amended_failure_policy_witness :
    (∃ r, (generate_report ⟨[⟨1, "wb"⟩], [⟨1, 1, "subj", some "X"⟩],
          [⟨1, 1, "node1", some "A", []⟩], []⟩
        ⟨fun _ => some "I",
          fun p => if p = "Summarize and explain the following concepts:\n\nnode1: A"
            then some "B" else none⟩ 1 "t").result = .ok r ∧
      r.introduction = some "I" ∧
      r.body = some (String.intercalate "\n\n" ["B"]) ∧
      r.conclusion = none ∧
      (generate_report ⟨[⟨1, "wb"⟩], [⟨1, 1, "subj", some "X"⟩],
          [⟨1, 1, "node1", some "A", []⟩], []⟩
        ⟨fun _ => some "I",
          fun p => if p = "Summarize and explain the following concepts:\n\nnode1: A"
            then some "B" else none⟩ 1 "t").db.reports = [] ++ [r]) ∧
    (∃ r, (generate_report ⟨[⟨1, "wb"⟩], [⟨1, 1, "subj", some "X"⟩],
          [⟨1, 1, "node1", some "A", []⟩], []⟩
        ⟨fun _ => none, fun _ => some "B"⟩ 1 "t").result = .ok r ∧
      r.introduction = none ∧
      r.body = some (String.intercalate "\n\n" ["B"]) ∧
      r.conclusion =
        some "B" ∧
      (generate_report ⟨[⟨1, "wb"⟩], [⟨1, 1, "subj", some "X"⟩],
          [⟨1, 1, "node1", some "A", []⟩], []⟩
        ⟨fun _ => none, fun _ => some "B"⟩ 1 "t").db.reports = [] ++ [r]) := by
  constructor
  · exact (c1_amended_failure_policy ⟨[⟨1, "wb"⟩], [⟨1, 1, "subj", some "X"⟩],
        [⟨1, 1, "node1", some "A", []⟩], []⟩
      ⟨fun _ => some "I",
        fun p => if p = "Summarize and explain the following concepts:\n\nnode1: A"
          then some "B" else none⟩ 1 "t"
      [[⟨1, 1, "node1", some "A", []⟩]] rfl (by decide) rfl).2.1 "I" ["B"] rfl rfl rfl
  · exact (c1_amended_failure_policy ⟨[⟨1, "wb"⟩], [⟨1, 1, "subj", some "X"⟩],
        [⟨1, 1, "node1", some "A", []⟩], []⟩
      ⟨fun _ => none, fun _ => some "B"⟩ 1 "t"
      [[⟨1, 1, "node1", some "A", []⟩]] rfl (by decide) rfl).2.2 ["B"] rfl rfl

/-- Claim C2, amended: in the body phase no cluster is skipped — every cluster,
including one whose `"name: summary"` concatenation is empty, produces exactly
one generation call, and all returned sections (empty or not) are collected in
cluster emission order and joined with the blank-line separator to form the
body.  The call trace is the introduction prompt, then one section prompt per
cluster in order, then (when the join succeeds) the conclusion prompt. -/
theorem c2_amended_every_cluster_generates (db : DB) (o : Oracle) (wid : Nat)
    (now : String) (gs : List (List NodeRec))
    (hw : (db.whiteboards.find? (fun w => w.id == wid)).isNone = false)
    (hs : db.subjects.filter (fun s => s.whiteboard_id == wid) ≠ [])
    (hg : group_nodes_by_relevance (db.nodes.filter (fun n => n.whiteboard_id == wid)) =
      some gs) :
    (∀ secs, seqOptions ((gs.map sectionPrompt).map o.genBody) = some secs →
      (generate_report db o wid now).calls =
        (introPromptOf (db.subjects.filter (fun s => s.whiteboard_id == wid)) ::
          gs.map sectionPrompt) ++
          [conclusionPromptOf
            (o.genIntro (introPromptOf (db.subjects.filter (fun s => s.whiteboard_id == wid))))
            (String.intercalate "\n\n" secs)] ∧
      ∃ r, (generate_report db o wid now).result = .ok r ∧
        r.body = some (String.intercalate "\n\n" secs)) ∧
    (none ∈ (gs.map sectionPrompt).map o.genBody →
      (generate_report db o wid now).calls =
        introPromptOf (db.subjects.filter (fun s => s.whiteboard_id == wid)) ::
          gs.map sectionPrompt) := by
  simp only [generate_report, hw, Bool.false_eq_true, if_false, hg]
  rw [if_neg (by simpa [List.isEmpty_iff] using hs)]
  constructor
  · intro secs hsec
    rw [hsec]
    exact ⟨rfl, _, rfl, rfl⟩
  · intro hnone
    rw [seqOptions_eq_none hnone]

/-- Claim C2, amended, witness: a cluster of one summaryless node still
produces its generation call and its section enters the body. -/
theorem c2_amended_every_cluster_generates_witness :
    (generate_report ⟨[⟨1, "wb"⟩], [⟨1, 1, "subj", some "X"⟩],
        [⟨5, 1, "node5", none, []⟩], []⟩
      ⟨fun _ => some "I", fun _ => some "B"⟩ 1 "t").calls =
      (introPromptOf [⟨1, 1, "subj", some "X"⟩] ::
        [[(⟨5, 1, "node5", none, []⟩ : NodeRec)]].map sectionPrompt) ++
        [conclusionPromptOf (some "I") (String.intercalate "\n\n" ["B"])] ∧
    ∃ r, (generate_report ⟨[⟨1, "wb"⟩], [⟨1, 1, "subj", some "X"⟩],
        [⟨5, 1, "node5", none, []⟩], []⟩
      ⟨fun _ => some "I", fun _ => some "B"⟩ 1 "t").result = .ok r ∧
      r.body = some (String.intercalate "\n\n" ["B"]) := by
  exact (c2_amended_every_cluster_generates ⟨[⟨1, "wb"⟩], [⟨1, 1, "subj", some "X"⟩],
      [⟨5, 1, "node5", none, []⟩], []⟩
    ⟨fun _ => some "I", fun _ => some "B"⟩ 1 "t"
    [[⟨5, 1, "node5", none, []⟩]] rfl (by decide) rfl).1 ["B"] rfl

/-! ### The adjacency structure -/

lemma mem_insertOnce {l : List Nat} {x y : Nat} :
    y ∈ insertOnce l x ↔ y ∈ l ∨ y = x := by
  unfold insertOnce
  split
  · constructor
    · exact Or.inl
    · rintro (h | rfl)
      · exact h
      · assumption
  · simp [or_comm]

lemma mem_neighbors {edges : List (Nat × Nat)} {x y : Nat} :
    y ∈ neighbors edges x ↔ (x, y) ∈ edges ∨ (y, x) ∈ edges := by
  rw [neighbors]
  suffices h : ∀ (es : List (Nat × Nat)) (acc : List Nat),
      y ∈ es.foldl
        (fun acc e =>
          let acc1 := if e.1 = x then insertOnce acc e.2 else acc
          if e.2 = x then insertOnce acc1 e.1 else acc1) acc ↔
        y ∈ acc ∨ (x, y) ∈ es ∨ (y, x) ∈ es by
    simpa using h edges []
  intro es
  induction es with
  | nil => simp
  | cons e rest ih =>
    intro acc
    obtain ⟨a, b⟩ := e
    rw [List.foldl_cons, ih]
    by_cases h1 : a = x <;> by_cases h2 : b = x <;>
      simp [h1, h2, mem_insertOnce, List.mem_cons, Prod.ext_iff, eq_comm] <;>
      tauto

lemma sym_neighbors (edges : List (Nat × Nat)) : Sym (neighbors edges) := by
  intro x y hy
  rw [mem_neighbors] at hy ⊢
  exact hy.symm

lemma closedUnder_adjOf (nodes : List NodeRec) :
    ClosedUnder (adjOf nodes) (idUniverse nodes).toFinset := by
  intro x y hy
  rw [adjOf, mem_neighbors] at hy
  rw [List.mem_toFinset, idUniverse]
  rcases hy with hy | hy
  · refine List.mem_append.mpr (Or.inr ?_)
    exact List.mem_map.mpr ⟨(x, y), hy, rfl⟩
  · refine List.mem_append.mpr (Or.inl ?_)
    refine List.mem_append.mpr (Or.inr ?_)
    exact List.mem_map.mpr ⟨(y, x), hy, rfl⟩

lemma reach_refl (adj : Nat → List Nat) (x : Nat) : Reach adj x x :=
  Relation.ReflTransGen.refl

lemma reach_symm {adj : Nat → List Nat} (hs : Sym adj) {x y : Nat}
    (h : Reach adj x y) : Reach adj y x :=
  Relation.ReflTransGen.symmetric (fun _ _ hxy => hs _ _ hxy) h

lemma reach_trans {adj : Nat → List Nat} {x y z : Nat}
    (h1 : Reach adj x y) (h2 : Reach adj y z) : Reach adj x z :=
  Relation.ReflTransGen.trans h1 h2

lemma reach_mem_universe {adj : Nat → List Nat} {U : Finset Nat}
    (hU : ClosedUnder adj U) {x y : Nat} (h : Reach adj x y) (hx : x ∈ U) :
    y ∈ U := by
  induction h with
  | refl => exact hx
  | tail _ hstep ih => exact hU _ _ hstep

lemma reach_congr {adj₁ adj₂ : Nat → List Nat}
    (hc : ∀ x y, y ∈ adj₁ x ↔ y ∈ adj₂ x) {x y : Nat} :
    Reach adj₁ x y ↔ Reach adj₂ x y := by
  constructor
  · exact Relation.ReflTransGen.mono (fun a b hab => (hc a b).mp hab)
  · exact Relation.ReflTransGen.mono (fun a b hab => (hc a b).mpr hab)

/-! ### Basic properties of the traversal -/

lemma extends_refl (v : List Nat) : Extends v v := ⟨[], by simp⟩

lemma extends_trans {u v w : List Nat} (h1 : Extends u v) (h2 : Extends v w) :
    Extends u w := by
  obtain ⟨d1, rfl⟩ := h1
  obtain ⟨d2, rfl⟩ := h2
  exact ⟨d1 ++ d2, by simp⟩

lemma extends_mem {v w : List Nat} (h : Extends v w) {x : Nat} (hx : x ∈ v) :
    x ∈ w := by
  obtain ⟨d, rfl⟩ := h
  exact List.mem_append.mpr (Or.inl hx)

lemma extends_subset_toFinset {v w : List Nat} (h : Extends v w) :
    v.toFinset ⊆ w.toFinset := by
  intro x hx
  rw [List.mem_toFinset] at hx ⊢
  exact extends_mem h hx

lemma dfsFold_extends (adj : Nat → List Nat) (fuel : Nat)
    (H : ∀ n acc, Extends acc (dfs adj fuel n acc)) :
    ∀ l acc, Extends acc (dfsFold adj fuel l acc) := by
  intro l
  induction l with
  | nil => exact fun acc => extends_refl acc
  | cons m rest ih =>
    intro acc
    exact extends_trans (H m acc) (ih (dfs adj fuel m acc))

lemma dfs_extends (adj : Nat → List Nat) :
    ∀ (fuel : Nat) (n : Nat) (visited : List Nat),
      Extends visited (dfs adj fuel n visited) := by
  intro fuel
  induction fuel with
  | zero => exact fun n visited => extends_refl visited
  | succ fuel ih =>
    intro n visited
    rw [dfs]
    split
    · exact extends_refl visited
    · exact extends_trans ⟨[n], rfl⟩ (dfsFold_extends adj fuel ih (adj n) (visited ++ [n]))

lemma dfsFold_extends' (adj : Nat → List Nat) (fuel : Nat) :
    ∀ l acc, Extends acc (dfsFold adj fuel l acc) :=
  dfsFold_extends adj fuel (fun n acc => dfs_extends adj fuel n acc)

lemma dfs_mem_self (adj : Nat → List Nat) {fuel : Nat} (hf : 0 < fuel)
    (n : Nat) (visited : List Nat) : n ∈ dfs adj fuel n visited := by
  obtain ⟨fuel, rfl⟩ := Nat.exists_eq_succ_of_ne_zero (Nat.pos_iff_ne_zero.mp hf)
  rw [dfs]
  split
  · assumption
  · refine extends_mem (dfsFold_extends' adj fuel (adj n) (visited ++ [n])) ?_
    exact List.mem_append.mpr (Or.inr (List.mem_singleton.mpr rfl))

lemma dfsFold_mem (adj : Nat → List Nat) {fuel : Nat} (hf : 0 < fuel) :
    ∀ (l acc : List Nat) (m : Nat), m ∈ l → m ∈ dfsFold adj fuel l acc := by
  intro l
  induction l with
  | nil => intro acc m hm; cases hm
  | cons m' rest ih =>
    intro acc m hm
    rcases List.mem_cons.mp hm with rfl | hm
    · exact extends_mem (dfsFold_extends' adj fuel rest (dfs adj fuel m acc))
        (dfs_mem_self adj hf m acc)
    · exact ih (dfs adj fuel m' acc) m hm

/-- When the start node is fresh, the delta of the traversal starts with it. -/
lemma dfs_delta_head (adj : Nat → List Nat) {fuel : Nat} (hf : 0 < fuel)
    {n : Nat} {visited : List Nat} (hn : n ∉ visited) :
    ∃ t, dfs adj fuel n visited = visited ++ n :: t := by
  obtain ⟨fuel, rfl⟩ := Nat.exists_eq_succ_of_ne_zero (Nat.pos_iff_ne_zero.mp hf)
  rw [dfs, if_neg hn]
  obtain ⟨d, hd⟩ := dfsFold_extends' adj fuel (adj n) (visited ++ [n])
  refine ⟨d, ?_⟩
  show dfsFold adj fuel (adj n) (visited ++ [n]) = _
  rw [hd]
  simp

lemma dfsFold_nil (adj : Nat → List Nat) (fuel : Nat) (acc : List Nat) :
    dfsFold adj fuel [] acc = acc := rfl

lemma dfsFold_cons (adj : Nat → List Nat) (fuel m : Nat) (rest acc : List Nat) :
    dfsFold adj fuel (m :: rest) acc = dfsFold adj fuel rest (dfs adj fuel m acc) := rfl

/-! ### Soundness: everything newly visited is reachable from the root -/

lemma dfsFold_sound_of (adj : Nat → List Nat) (fuel : Nat)
    (H : ∀ n visited x, x ∈ dfs adj fuel n visited → x ∈ visited ∨ Reach adj n x) :
    ∀ l acc x, x ∈ dfsFold adj fuel l acc → x ∈ acc ∨ ∃ m ∈ l, Reach adj m x := by
  intro l
  induction l with
  | nil => intro acc x hx; exact Or.inl hx
  | cons m rest ih =>
    intro acc x hx
    rw [dfsFold_cons] at hx
    rcases ih (dfs adj fuel m acc) x hx with hx' | ⟨m', hm', hr⟩
    · rcases H m acc x hx' with h | h
      · exact Or.inl h
      · exact Or.inr ⟨m, List.mem_cons_self m rest, h⟩
    · exact Or.inr ⟨m', List.mem_cons.mpr (Or.inr hm'), hr⟩

lemma dfs_sound (adj : Nat → List Nat) : ∀ (fuel n : Nat) (visited : List Nat)
    (x : Nat), x ∈ dfs adj fuel n visited → x ∈ visited ∨ Reach adj n x := by
  intro fuel
  induction fuel with
  | zero => intro n visited x hx; exact Or.inl hx
  | succ fuel ih =>
    intro n visited x hx
    rw [dfs] at hx
    split at hx
    · exact Or.inl hx
    · rcases dfsFold_sound_of adj fuel ih (adj n) (visited ++ [n]) x hx with hx' | ⟨m, hm, hr⟩
      · rcases List.mem_append.mp hx' with h | h
        · exact Or.inl h
        · rw [List.mem_singleton] at h
          subst h
          exact Or.inr (reach_refl adj x)
      · exact Or.inr (Relation.ReflTransGen.head hm hr)

/-! ### The traversal preserves freedom from duplicates -/

lemma dfsFold_nodup_of (adj : Nat → List Nat) (fuel : Nat)
    (H : ∀ n visited, visited.Nodup → (dfs adj fuel n visited).Nodup) :
    ∀ l acc, acc.Nodup → (dfsFold adj fuel l acc).Nodup := by
  intro l
  induction l with
  | nil => intro acc h; exact h
  | cons m rest ih =>
    intro acc h
    rw [dfsFold_cons]
    exact ih (dfs adj fuel m acc) (H m acc h)

lemma dfs_nodup (adj : Nat → List Nat) : ∀ (fuel n : Nat) (visited : List Nat),
    visited.Nodup → (dfs adj fuel n visited).Nodup := by
  intro fuel
  induction fuel with
  | zero => intro n visited h; exact h
  | succ fuel ih =>
    intro n visited h
    rw [dfs]
    split
    · exact h
    · refine dfsFold_nodup_of adj fuel ih (adj n) (visited ++ [n]) ?_
      rename_i hnv
      simp [List.nodup_append, h, hnv]

/-! ### The closure postcondition: a finished traversal never stops short -/

lemma dfsFold_closed_of (adj : Nat → List Nat) (U : Finset Nat) (fuel : Nat)
    (H : ∀ n visited, n ∈ U → (U \ visited.toFinset).card < fuel →
      ∀ x ∈ dfs adj fuel n visited, x ∉ visited →
      ∀ y ∈ adj x, y ∈ dfs adj fuel n visited) :
    ∀ l acc, (∀ m ∈ l, m ∈ U) → (U \ acc.toFinset).card < fuel →
      ∀ x ∈ dfsFold adj fuel l acc, x ∉ acc →
      ∀ y ∈ adj x, y ∈ dfsFold adj fuel l acc := by
  intro l
  induction l with
  | nil => intro acc _ _ x hx hnx; exact absurd hx hnx
  | cons m rest ih =>
    intro acc hl hcard x hx hnx y hy
    rw [dfsFold_cons] at hx ⊢
    have hcard1 : (U \ (dfs adj fuel m acc).toFinset).card ≤ (U \ acc.toFinset).card :=
      Finset.card_le_card (Finset.sdiff_subset_sdiff (Finset.Subset.refl U)
        (extends_subset_toFinset (dfs_extends adj fuel m acc)))
    by_cases hx1 : x ∈ dfs adj fuel m acc
    · have hy1 : y ∈ dfs adj fuel m acc :=
        H m acc (hl m (List.mem_cons_self m rest)) hcard x hx1 hnx y hy
      exact extends_mem (dfsFold_extends' adj fuel rest (dfs adj fuel m acc)) hy1
    · exact ih (dfs adj fuel m acc) (fun m' hm' => hl m' (List.mem_cons.mpr (Or.inr hm')))
        (lt_of_le_of_lt hcard1 hcard) x hx hx1 y hy

lemma dfs_closed_adj (adj : Nat → List Nat) (U : Finset Nat)
    (hU : ClosedUnder adj U) : ∀ (fuel n : Nat) (visited : List Nat),
    n ∈ U → (U \ visited.toFinset).card < fuel →
    ∀ x ∈ dfs adj fuel n visited, x ∉ visited →
    ∀ y ∈ adj x, y ∈ dfs adj fuel n visited := by
  intro fuel
  induction fuel with
  | zero => intro n visited _ hcard; exact absurd hcard (Nat.not_lt_zero _)
  | succ fuel ih =>
    intro n visited hn hcard x hx hnx y hy
    by_cases hnv : n ∈ visited
    · rw [dfs, if_pos hnv] at hx
      exact absurd hx hnx
    · rw [dfs, if_neg hnv] at hx ⊢
      have hnUv : n ∈ U \ visited.toFinset :=
        Finset.mem_sdiff.mpr ⟨hn, by simpa [List.mem_toFinset] using hnv⟩
      have hcard0 : (U \ (visited ++ [n]).toFinset).card < fuel := by
        have he : U \ (visited ++ [n]).toFinset = (U \ visited.toFinset).erase n := by
          ext z
          simp only [Finset.mem_sdiff, Finset.mem_erase, List.mem_toFinset,
            List.mem_append, List.mem_singleton]
          tauto
        have hpos : 0 < (U \ visited.toFinset).card :=
          Finset.card_pos.mpr ⟨n, hnUv⟩
        rw [he, Finset.card_erase_of_mem hnUv]
        omega
      have hf : 0 < fuel := by
        rcases Nat.eq_zero_or_pos fuel with rfl | hf
        · exact absurd hcard0 (Nat.not_lt_zero _)
        · exact hf
      by_cases hxn : x = n
      · subst hxn
        exact dfsFold_mem adj hf (adj x) (visited ++ [x]) y hy
      · have hxacc : x ∉ visited ++ [n] := by
          simp only [List.mem_append, List.mem_singleton]
          rintro (h | h)
          · exact hnx h
          · exact hxn h
        exact dfsFold_closed_of adj U fuel ih (adj n) (visited ++ [n])
          (fun m hm => hU n m hm) hcard0 x hx hxacc y hy

/-! ### Completeness: with a closed symmetric frontier, every reachable id is
collected by the traversal -/

lemma dfs_complete (adj : Nat → List Nat) (U : Finset Nat)
    (hU : ClosedUnder adj U) (hsym : Sym adj) {fuel n : Nat} {visited : List Nat}
    (hn : n ∈ U) (hnv : n ∉ visited) (hvc : VClosed adj visited)
    (hcard : (U \ visited.toFinset).card < fuel) :
    ∀ y, Reach adj n y → y ∈ dfs adj fuel n visited ∧ y ∉ visited := by
  have hf : 0 < fuel := Nat.lt_of_le_of_lt (Nat.zero_le _) hcard
  intro y hr
  induction hr with
  | refl => exact ⟨dfs_mem_self adj hf n visited, hnv⟩
  | tail hreach hstep ih =>
    obtain ⟨hb, hbnv⟩ := ih
    rename_i b c
    refine ⟨dfs_closed_adj adj U hU fuel n visited hn hcard b hb hbnv c hstep, ?_⟩
    intro hcv
    exact hbnv (hvc c hcv b (hsym b c hstep))

/-! ### The packaged step: everything `groupLoop` needs about one `dfs` call -/

lemma dfs_step_pack (adj : Nat → List Nat) (U : Finset Nat)
    (hU : ClosedUnder adj U) (hsym : Sym adj) {fuel n : Nat} {visited : List Nat}
    (hn : n ∈ U) (hnv : n ∉ visited)
    (hcard : (U \ visited.toFinset).card < fuel)
    (hnd : visited.Nodup) (hvc : VClosed adj visited) :
    ∃ d, dfs adj fuel n visited = visited ++ d ∧
      (visited ++ d).Nodup ∧
      VClosed adj (visited ++ d) ∧
      (∀ y, y ∈ d ↔ Reach adj n y) ∧
      (∀ y ∈ d, y ∈ U) ∧
      (∃ t, d = n :: t) := by
  have hf : 0 < fuel := Nat.lt_of_le_of_lt (Nat.zero_le _) hcard
  obtain ⟨t, ht⟩ := dfs_delta_head adj hf hnv
  have hnd' : (visited ++ n :: t).Nodup := by
    have h := dfs_nodup adj fuel n visited hnd
    rwa [ht] at h
  have hdisj : visited.Disjoint (n :: t) := List.disjoint_of_nodup_append hnd'
  have hiff : ∀ y, y ∈ n :: t ↔ Reach adj n y := by
    intro y
    constructor
    · intro hy
      have hydfs : y ∈ dfs adj fuel n visited := by
        rw [ht]
        exact List.mem_append.mpr (Or.inr hy)
      rcases dfs_sound adj fuel n visited y hydfs with hyv | hr
      · exact absurd hy (fun h => hdisj hyv h)
      · exact hr
    · intro hr
      obtain ⟨hy, hynv⟩ := dfs_complete adj U hU hsym hn hnv hvc hcard y hr
      rw [ht] at hy
      rcases List.mem_append.mp hy with h | h
      · exact absurd h hynv
      · exact h
  refine ⟨n :: t, ht, hnd', ?_, hiff, ?_, ⟨t, rfl⟩⟩
  · intro x hx y hy
    rcases List.mem_append.mp hx with hxv | hxd
    · exact List.mem_append.mpr (Or.inl (hvc x hxv y hy))
    · have hxnv : x ∉ visited := fun hxv => hdisj hxv hxd
      have hxdfs : x ∈ dfs adj fuel n visited := by
        rw [ht]
        exact List.mem_append.mpr (Or.inr hxd)
      have hcl := dfs_closed_adj adj U hU fuel n visited hn hcard x hxdfs hxnv y hy
      rwa [ht] at hcl
  · intro y hy
    exact reach_mem_universe hU ((hiff y).mp hy) hn

lemma reach_mem_vclosed {adj : Nat → List Nat} {v : List Nat}
    (hvc : VClosed adj v) {n x : Nat} (hn : n ∈ v) (hr : Reach adj n x) :
    x ∈ v := by
  induction hr with
  | refl => exact hn
  | tail _ hstep ih => exact hvc _ ih _ hstep

/-! ### The top-level loop: full characterization of the emitted groups -/

lemma groupLoop_spec (adj : Nat → List Nat) (U : Finset Nat)
    (hU : ClosedUnder adj U) (hsym : Sym adj) (fuel : Nat) :
    ∀ (ids visited : List Nat) (groups : List (List Nat)),
      (∀ i ∈ ids, i ∈ U) →
      (U \ visited.toFinset).card < fuel →
      visited.Nodup → VClosed adj visited →
      (groupLoop adj fuel ids visited groups).1.Nodup ∧
      VClosed adj (groupLoop adj fuel ids visited groups).1 ∧
      (∀ x, x ∈ (groupLoop adj fuel ids visited groups).1 ↔
        x ∈ visited ∨ ∃ i ∈ ids, Reach adj i x) ∧
      (∃ newGroups, (groupLoop adj fuel ids visited groups).2 = groups ++ newGroups ∧
        (groupLoop adj fuel ids visited groups).1 = visited ++ newGroups.flatten ∧
        (∀ g ∈ newGroups, ∃ r t, g = r :: t ∧ r ∈ ids ∧
          (∀ y, y ∈ g ↔ Reach adj r y))) := by
  intro ids
  induction ids with
  | nil =>
    intro visited groups _ _ hnd hvc
    refine ⟨hnd, hvc, ?_, [], by simp [groupLoop], by simp [groupLoop], ?_⟩
    · intro x
      simp [groupLoop]
    · intro g hg
      cases hg
  | cons n rest ih =>
    intro visited groups hids hcard hnd hvc
    by_cases hnv : n ∈ visited
    · rw [groupLoop, if_pos hnv]
      obtain ⟨h1, h2, h3, ng, hg1, hg2, hg3⟩ :=
        ih visited groups (fun i hi => hids i (List.mem_cons.mpr (Or.inr hi)))
          hcard hnd hvc
      refine ⟨h1, h2, ?_, ng, hg1, hg2, ?_⟩
      · intro x
        rw [h3 x]
        constructor
        · rintro (h | ⟨i, hi, hr⟩)
          · exact Or.inl h
          · exact Or.inr ⟨i, List.mem_cons.mpr (Or.inr hi), hr⟩
        · rintro (h | ⟨i, hi, hr⟩)
          · exact Or.inl h
          · rcases List.mem_cons.mp hi with rfl | hi
            · exact Or.inl (reach_mem_vclosed hvc hnv hr)
            · exact Or.inr ⟨i, hi, hr⟩
      · intro g hg
        obtain ⟨r, t, hgt, hr, hiff⟩ := hg3 g hg
        exact ⟨r, t, hgt, List.mem_cons.mpr (Or.inr hr), hiff⟩
    · rw [groupLoop, if_neg hnv]
      obtain ⟨d, hd, hnd', hvc', hdiff, hdU, t, rfl⟩ :=
        dfs_step_pack adj U hU hsym (hids n (List.mem_cons_self n rest)) hnv
          hcard hnd hvc
      simp only [hd, List.drop_left]
      have hcard' : (U \ (visited ++ n :: t).toFinset).card < fuel := by
        refine lt_of_le_of_lt ?_ hcard
        refine Finset.card_le_card (Finset.sdiff_subset_sdiff (Finset.Subset.refl U) ?_)
        exact extends_subset_toFinset ⟨n :: t, rfl⟩
      obtain ⟨h1, h2, h3, ng, hg1, hg2, hg3⟩ :=
        ih (visited ++ n :: t) (groups ++ [n :: t])
          (fun i hi => hids i (List.mem_cons.mpr (Or.inr hi))) hcard' hnd' hvc'
      refine ⟨h1, h2, ?_, (n :: t) :: ng, ?_, ?_, ?_⟩
      · intro x
        rw [h3 x]
        constructor
        · rintro (h | ⟨i, hi, hr⟩)
          · rcases List.mem_append.mp h with h | h
            · exact Or.inl h
            · exact Or.inr ⟨n, List.mem_cons_self n rest, (hdiff x).mp h⟩
          · exact Or.inr ⟨i, List.mem_cons.mpr (Or.inr hi), hr⟩
        · rintro (h | ⟨i, hi, hr⟩)
          · exact Or.inl (List.mem_append.mpr (Or.inl h))
          · rcases List.mem_cons.mp hi with rfl | hi
            · exact Or.inl (List.mem_append.mpr (Or.inr ((hdiff x).mpr hr)))
            · exact Or.inr ⟨i, hi, hr⟩
      · rw [hg1]
        simp
      · rw [hg2]
        simp
      · intro g hg
        rcases List.mem_cons.mp hg with rfl | hg
        · exact ⟨n, t, rfl, List.mem_cons_self n rest, hdiff⟩
        · obtain ⟨r, t', hgt, hr, hiff⟩ := hg3 g hg
          exact ⟨r, t', hgt, List.mem_cons.mpr (Or.inr hr), hiff⟩

lemma groupLoop_nil (adj : Nat → List Nat) (fuel : Nat) (visited : List Nat)
    (groups : List (List Nat)) : groupLoop adj fuel [] visited groups = (visited, groups) :=
  rfl

lemma groupLoop_cons_mem (adj : Nat → List Nat) (fuel n : Nat)
    {visited : List Nat} (rest : List Nat) (groups : List (List Nat))
    (hnv : n ∈ visited) :
    groupLoop adj fuel (n :: rest) visited groups =
      groupLoop adj fuel rest visited groups := by
  rw [groupLoop, if_pos hnv]

lemma groupLoop_cons_new (adj : Nat → List Nat) (fuel n : Nat)
    {visited : List Nat} (rest : List Nat) (groups : List (List Nat))
    (hnv : n ∉ visited) :
    groupLoop adj fuel (n :: rest) visited groups =
      groupLoop adj fuel rest (dfs adj fuel n visited)
        (groups ++ [(dfs adj fuel n visited).drop visited.length]) := by
  rw [groupLoop, if_neg hnv]

/-- The groups accumulator only collects output: it does not influence the
traversal, and the result is the accumulator followed by the groups an
empty-accumulator run emits. -/
lemma groupLoop_acc (adj : Nat → List Nat) (fuel : Nat) :
    ∀ (ids visited : List Nat) (groups : List (List Nat)),
      (groupLoop adj fuel ids visited groups).1 =
        (groupLoop adj fuel ids visited []).1 ∧
      (groupLoop adj fuel ids visited groups).2 =
        groups ++ (groupLoop adj fuel ids visited []).2 := by
  intro ids
  induction ids with
  | nil => intro visited groups; exact ⟨rfl, by simp [groupLoop_nil]⟩
  | cons n rest ih =>
    intro visited groups
    by_cases hnv : n ∈ visited
    · rw [groupLoop_cons_mem adj fuel n rest groups hnv,
        groupLoop_cons_mem adj fuel n rest [] hnv]
      exact ih visited groups
    · rw [groupLoop_cons_new adj fuel n rest groups hnv,
        groupLoop_cons_new adj fuel n rest [] hnv]
      refine ⟨((ih _ _).1).trans ((ih _ _).1).symm, ?_⟩
      rw [(ih _ _).2]
      conv_rhs => rw [(ih _ _).2]
      simp

/-- Each emitted group opens with the first input id that is not yet covered
by the groups emitted before it (together with the initially visited ids). -/
lemma groupLoop_heads (adj : Nat → List Nat) {fuel : Nat} (hf : 0 < fuel) :
    ∀ (ids visited : List Nat) (k : Nat) (g : List Nat),
      ((groupLoop adj fuel ids visited []).2).get? k = some g →
      ∃ r s, g = r :: s ∧
        ids.find? (fun i =>
          decide (i ∉ visited ++
            (((groupLoop adj fuel ids visited []).2).take k).flatten)) = some r := by
  intro ids
  induction ids with
  | nil =>
    intro visited k g hg
    rw [groupLoop_nil] at hg
    simp at hg
  | cons n rest ih =>
    intro visited k g hg
    by_cases hnv : n ∈ visited
    · rw [groupLoop_cons_mem adj fuel n rest [] hnv] at hg ⊢
      obtain ⟨r, s, hgs, hfind⟩ := ih visited k g hg
      refine ⟨r, s, hgs, ?_⟩
      rw [List.find?_cons_of_neg, hfind]
      simp [hnv]
    · obtain ⟨t, ht⟩ := dfs_delta_head adj hf hnv
      rw [groupLoop_cons_new adj fuel n rest [] hnv] at hg ⊢
      have hdrop : (dfs adj fuel n visited).drop visited.length = n :: t := by
        rw [ht]
        simp
      rw [hdrop] at hg ⊢
      rw [(groupLoop_acc adj fuel rest (dfs adj fuel n visited) ([] ++ [n :: t])).2] at hg ⊢
      simp only [List.nil_append, List.singleton_append] at hg ⊢
      match k with
      | 0 =>
        rw [List.get?_cons_zero] at hg
        cases hg
        refine ⟨n, t, rfl, ?_⟩
        rw [List.find?_cons_of_pos]
        simp [hnv]
      | k + 1 =>
        rw [List.get?_cons_succ] at hg
        obtain ⟨r, s, hgs, hfind⟩ := ih (dfs adj fuel n visited) k g hg
        refine ⟨r, s, hgs, ?_⟩
        rw [List.find?_cons_of_neg]
        · rw [← hfind]
          congr 1
          funext i
          rw [decide_eq_decide]
          rw [List.take_succ_cons, List.flatten_cons, ht]
          simp only [List.mem_append, List.mem_cons]
          tauto
        · simp [List.take_succ_cons]

/-! ### The `node_map` lookups -/

lemma nodeMapFind_aux (i : Nat) :
    ∀ (nodes : List NodeRec) (acc : Option NodeRec),
      (nodes.foldl (fun acc n => if n.id = i then some n else acc) acc = acc ∧
        ∀ n ∈ nodes, n.id ≠ i) ∨
      (∃ n ∈ nodes, nodes.foldl (fun acc n => if n.id = i then some n else acc) acc
        = some n ∧ n.id = i) := by
  intro nodes
  induction nodes with
  | nil => intro acc; exact Or.inl ⟨rfl, by intro n hn; cases hn⟩
  | cons m rest ih =>
    intro acc
    rw [List.foldl_cons]
    by_cases hm : m.id = i
    · rcases ih (if m.id = i then some m else acc) with ⟨heq, hall⟩ | ⟨n, hn, heq, hid⟩
      · refine Or.inr ⟨m, List.mem_cons_self m rest, ?_, hm⟩
        rw [heq, if_pos hm]
      · exact Or.inr ⟨n, List.mem_cons.mpr (Or.inr hn), heq, hid⟩
    · rcases ih (if m.id = i then some m else acc) with ⟨heq, hall⟩ | ⟨n, hn, heq, hid⟩
      · refine Or.inl ⟨by rw [heq, if_neg hm], ?_⟩
        intro n hn
        rcases List.mem_cons.mp hn with rfl | hn
        · exact hm
        · exact hall n hn
      · exact Or.inr ⟨n, List.mem_cons.mpr (Or.inr hn), heq, hid⟩

lemma nodeMapFind_mem {nodes : List NodeRec} {i : Nat} {n : NodeRec}
    (h : nodeMapFind nodes i = some n) : n ∈ nodes ∧ n.id = i := by
  rcases nodeMapFind_aux i nodes none with ⟨heq, _⟩ | ⟨m, hm, heq, hid⟩
  · rw [nodeMapFind] at h
    rw [heq] at h
    cases h
  · rw [nodeMapFind] at h
    rw [heq] at h
    cases h
    exact ⟨hm, hid⟩

lemma nodeMapFind_isSome {nodes : List NodeRec} {i : Nat}
    (h : ∃ n ∈ nodes, n.id = i) : (nodeMapFind nodes i).isSome = true := by
  rcases nodeMapFind_aux i nodes none with ⟨heq, hall⟩ | ⟨m, hm, heq, hid⟩
  · obtain ⟨n, hn, hid⟩ := h
    exact absurd hid (hall n hn)
  · rw [nodeMapFind, heq]
    rfl

lemma lookupD_id {nodes : List NodeRec} {i : Nat}
    (h : (nodeMapFind nodes i).isSome = true) :
    (lookupD nodes i).id = i ∧ lookupD nodes i ∈ nodes := by
  obtain ⟨n, hn⟩ := Option.isSome_iff_exists.mp h
  obtain ⟨hmem, hid⟩ := nodeMapFind_mem hn
  rw [lookupD, hn]
  exact ⟨hid, hmem⟩

lemma nodeMapFind_self {nodes : List NodeRec}
    (hnd : (inputIds nodes).Nodup) {m : NodeRec} (hm : m ∈ nodes) :
    nodeMapFind nodes m.id = some m := by
  have hs : (nodeMapFind nodes m.id).isSome = true :=
    nodeMapFind_isSome ⟨m, hm, rfl⟩
  obtain ⟨n, hn⟩ := Option.isSome_iff_exists.mp hs
  obtain ⟨hmem, hid⟩ := nodeMapFind_mem hn
  have : n = m := List.inj_on_of_nodup_map hnd hmem hm hid
  rw [hn, this]

lemma lookupD_self {nodes : List NodeRec}
    (hnd : (inputIds nodes).Nodup) {m : NodeRec} (hm : m ∈ nodes) :
    lookupD nodes m.id = m := by
  rw [lookupD, nodeMapFind_self hnd hm]
  rfl

lemma mapLookup_eq_some {nodes : List NodeRec} :
    ∀ {l : List Nat}, (∀ i ∈ l, (nodeMapFind nodes i).isSome = true) →
      mapLookup nodes l = some (l.map (lookupD nodes)) := by
  intro l
  induction l with
  | nil => intro _; rfl
  | cons i rest ih =>
    intro h
    rw [mapLookup]
    obtain ⟨n, hn⟩ := Option.isSome_iff_exists.mp (h i (List.mem_cons_self i rest))
    rw [hn, ih (fun j hj => h j (List.mem_cons.mpr (Or.inr hj)))]
    simp [lookupD, hn]

lemma groupsLookup_eq_some {nodes : List NodeRec} :
    ∀ {gs : List (List Nat)},
      (∀ g ∈ gs, ∀ i ∈ g, (nodeMapFind nodes i).isSome = true) →
      groupsLookup nodes gs = some (gs.map (fun g => g.map (lookupD nodes))) := by
  intro gs
  induction gs with
  | nil => intro _; rfl
  | cons g rest ih =>
    intro h
    rw [groupsLookup, mapLookup_eq_some (h g (List.mem_cons_self g rest)),
      ih (fun g' hg' => h g' (List.mem_cons.mpr (Or.inr hg')))]
    rfl

/-! ### Claim-level facts about the clusterer -/

lemma mem_edgesOf {nodes : List NodeRec} {a b : Nat} :
    (a, b) ∈ edgesOf nodes ↔ ∃ n ∈ nodes, n.id = a ∧ b ∈ n.conns := by
  rw [edgesOf]
  simp only [List.mem_flatten, List.mem_map]
  constructor
  · rintro ⟨l, ⟨n, hn, rfl⟩, hab⟩
    obtain ⟨t, ht, habt⟩ := List.mem_map.mp hab
    cases habt
    exact ⟨n, hn, rfl, ht⟩
  · rintro ⟨n, hn, rfl, hb⟩
    exact ⟨n.conns.map (fun t => (n.id, t)), ⟨n, hn, rfl⟩,
      List.mem_map.mpr ⟨b, hb, rfl⟩⟩

lemma idUniverse_subset (nodes : List NodeRec)
    (hin : ∀ n ∈ nodes, ∀ t ∈ n.conns, t ∈ inputIds nodes) :
    ∀ x ∈ idUniverse nodes, x ∈ inputIds nodes := by
  intro x hx
  rw [idUniverse] at hx
  rcases List.mem_append.mp hx with hx | hx
  · rcases List.mem_append.mp hx with hx | hx
    · exact hx
    · obtain ⟨e, he, rfl⟩ := List.mem_map.mp hx
      obtain ⟨n, hn, hid, _⟩ := mem_edgesOf.mp (by rwa [← Prod.eta e] at he)
      rw [← hid]
      exact List.mem_map.mpr ⟨n, hn, rfl⟩
  · obtain ⟨e, he, rfl⟩ := List.mem_map.mp hx
    obtain ⟨n, hn, _, hconn⟩ := mem_edgesOf.mp (by rwa [← Prod.eta e] at he)
    exact hin n hn e.2 hconn

lemma inputIds_subset_idUniverse (nodes : List NodeRec) :
    ∀ x ∈ inputIds nodes, x ∈ idUniverse nodes := by
  intro x hx
  rw [idUniverse]
  exact List.mem_append.mpr (Or.inl (List.mem_append.mpr (Or.inl hx)))

/-- The full characterization of the id-level clusters of a node list:
the first-visit order has no duplicates and is the concatenation of the
clusters; an id is visited exactly when it is reachable from some input id;
every cluster is non-empty, is headed by an input id, and holds exactly
the ids reachable from that head. -/
lemma idClusters_spec (nodes : List NodeRec) :
    (visitOrder nodes).Nodup ∧
    (idClusters nodes).flatten = visitOrder nodes ∧
    (∀ x, x ∈ visitOrder nodes ↔ ∃ i ∈ inputIds nodes, Reach (adjOf nodes) i x) ∧
    (∀ g ∈ idClusters nodes, ∃ r s, g = r :: s ∧ r ∈ inputIds nodes ∧
      (∀ y, y ∈ g ↔ Reach (adjOf nodes) r y)) := by
  have hfuel : ((idUniverse nodes).toFinset \ ([] : List Nat).toFinset).card <
      clusterFuel nodes := by
    rw [clusterFuel]
    refine Nat.lt_succ_of_le ?_
    calc ((idUniverse nodes).toFinset \ ([] : List Nat).toFinset).card
        ≤ (idUniverse nodes).toFinset.card :=
          Finset.card_le_card (Finset.sdiff_subset)
      _ ≤ (idUniverse nodes).length := List.toFinset_card_le _
  obtain ⟨h1, _h2, h3, ng, hg1, hg2, hg3⟩ :=
    groupLoop_spec (adjOf nodes) (idUniverse nodes).toFinset
      (closedUnder_adjOf nodes) (sym_neighbors _) (clusterFuel nodes)
      (inputIds nodes) [] []
      (fun i hi => List.mem_toFinset.mpr (inputIds_subset_idUniverse nodes i hi))
      hfuel List.nodup_nil (by intro x hx; cases hx)
  have hclusters : idClusters nodes = ng := by
    rw [idClusters, hg1]
    rfl
  have hvisit : visitOrder nodes = ng.flatten := by
    rw [visitOrder, hg2]
    rfl
  refine ⟨h1, by rw [hclusters, hvisit], ?_, ?_⟩
  · intro x
    rw [show visitOrder nodes = (groupLoop (adjOf nodes) (clusterFuel nodes)
      (inputIds nodes) [] []).1 from rfl, h3 x]
    simp
  · intro g hg
    rw [hclusters] at hg
    exact hg3 g hg

lemma visitOrder_covers (nodes : List NodeRec) :
    ∀ i ∈ inputIds nodes, i ∈ visitOrder nodes := by
  intro i hi
  exact ((idClusters_spec nodes).2.2.1 i).mpr ⟨i, hi, reach_refl _ i⟩

lemma visitOrder_subset (nodes : List NodeRec)
    (hin : ∀ n ∈ nodes, ∀ t ∈ n.conns, t ∈ inputIds nodes) :
    ∀ x ∈ visitOrder nodes, x ∈ inputIds nodes := by
  intro x hx
  obtain ⟨i, hi, hr⟩ := ((idClusters_spec nodes).2.2.1 x).mp hx
  refine idUniverse_subset nodes hin x ?_
  have hiU : i ∈ (idUniverse nodes).toFinset :=
    List.mem_toFinset.mpr (inputIds_subset_idUniverse nodes i hi)
  exact List.mem_toFinset.mp
    (reach_mem_universe (closedUnder_adjOf nodes) hr hiU)

/-- With every connection target inside the node list, the `node_map` lookups
all succeed and the clusterer returns the looked-up id-clusters. -/
lemma group_nodes_eq_some (nodes : List NodeRec)
    (hin : ∀ n ∈ nodes, ∀ t ∈ n.conns, t ∈ inputIds nodes) :
    group_nodes_by_relevance nodes =
      some ((idClusters nodes).map (fun g => g.map (lookupD nodes))) := by
  rw [group_nodes_by_relevance]
  refine groupsLookup_eq_some ?_
  intro g hg i hi
  have hflat : i ∈ (idClusters nodes).flatten :=
    List.mem_flatten.mpr ⟨g, hg, hi⟩
  rw [(idClusters_spec nodes).2.1] at hflat
  have hinput : i ∈ inputIds nodes := visitOrder_subset nodes hin i hflat
  obtain ⟨n, hn, hid⟩ := List.mem_map.mp hinput
  exact nodeMapFind_isSome ⟨n, hn, hid⟩

lemma flatten_map_lookup (nodes : List NodeRec) :
    ((idClusters nodes).map (fun g => g.map (lookupD nodes))).flatten =
      (idClusters nodes).flatten.map (lookupD nodes) :=
  (List.map_flatten _ _).symm

lemma idClusters_flatten_perm (nodes : List NodeRec)
    (hnd : (inputIds nodes).Nodup)
    (hin : ∀ n ∈ nodes, ∀ t ∈ n.conns, t ∈ inputIds nodes) :
    (idClusters nodes).flatten.Perm (inputIds nodes) := by
  obtain ⟨hnodup, hflat, _, _⟩ := idClusters_spec nodes
  rw [hflat]
  refine (List.perm_ext_iff_of_nodup hnodup hnd).mpr ?_
  intro a
  exact ⟨fun h => visitOrder_subset nodes hin a h, fun h => visitOrder_covers nodes a h⟩

/-- Claim C4: with all connection targets inside the node list (and the ids
unique, as database primary keys are), the emitted clusters partition the
input nodes: their concatenation is a permutation of the node list — every
node in exactly one cluster, no duplicates, no omissions — and distinct
clusters share no node. -/
theorem c4_partition (nodes : List NodeRec)
    (hnd : (inputIds nodes).Nodup)
    (hin : ∀ n ∈ nodes, ∀ t ∈ n.conns, t ∈ inputIds nodes) :
    ∃ gs, group_nodes_by_relevance nodes = some gs ∧
      gs.flatten.Perm nodes ∧
      List.Pairwise List.Disjoint gs := by
  obtain ⟨hnodup, hflat, _, _⟩ := idClusters_spec nodes
  refine ⟨(idClusters nodes).map (fun g => g.map (lookupD nodes)),
    group_nodes_eq_some nodes hin, ?_, ?_⟩
  · rw [flatten_map_lookup]
    have hlook : (inputIds nodes).map (lookupD nodes) = nodes := by
      rw [inputIds, List.map_map]
      have : ∀ n ∈ nodes, ((lookupD nodes) ∘ fun n => n.id) n = id n := by
        intro n hn
        exact lookupD_self hnd hn
      rw [List.map_congr_left this, List.map_id]
    have := (idClusters_flatten_perm nodes hnd hin).map (lookupD nodes)
    rwa [hlook] at this
  · have hinj : ∀ x ∈ (idClusters nodes).flatten, ∀ y ∈ (idClusters nodes).flatten,
        lookupD nodes x = lookupD nodes y → x = y := by
      intro x hx y hy heq
      have hx' : x ∈ inputIds nodes :=
        visitOrder_subset nodes hin x (hflat ▸ hx)
      have hy' : y ∈ inputIds nodes :=
        visitOrder_subset nodes hin y (hflat ▸ hy)
      obtain ⟨nx, hnx, hidx⟩ := List.mem_map.mp hx'
      obtain ⟨ny, hny, hidy⟩ := List.mem_map.mp hy'
      have hsx : (nodeMapFind nodes x).isSome = true := nodeMapFind_isSome ⟨nx, hnx, hidx⟩
      have hsy : (nodeMapFind nodes y).isSome = true := nodeMapFind_isSome ⟨ny, hny, hidy⟩
      calc x = (lookupD nodes x).id := ((lookupD_id hsx).1).symm
        _ = (lookupD nodes y).id := by rw [heq]
        _ = y := (lookupD_id hsy).1
    have hndflat :
        (((idClusters nodes).map (fun g => g.map (lookupD nodes))).flatten).Nodup := by
      rw [flatten_map_lookup]
      exact List.Nodup.map_on hinj (hflat ▸ hnodup)
    exact (List.nodup_flatten.mp hndflat).2

/-- Claim C4, witness: the two-edge four-node scenario clusters into
`[1,2]` and `[3,4]`, a partition of the input. -/
theorem c4_partition_witness :
    ∃ gs, group_nodes_by_relevance
        [⟨1, 1, "node1", none, [2]⟩, ⟨2, 1, "node2", none, []⟩,
          ⟨3, 1, "node3", none, [4]⟩, ⟨4, 1, "node4", none, []⟩] = some gs ∧
      gs.flatten.Perm
        [⟨1, 1, "node1", none, [2]⟩, ⟨2, 1, "node2", none, []⟩,
          ⟨3, 1, "node3", none, [4]⟩, ⟨4, 1, "node4", none, []⟩] ∧
      List.Pairwise List.Disjoint gs :=
  c4_partition
    [⟨1, 1, "node1", none, [2]⟩, ⟨2, 1, "node2", none, []⟩,
      ⟨3, 1, "node3", none, [4]⟩, ⟨4, 1, "node4", none, []⟩]
    (by decide) (by decide)

lemma mem_flatten_take : ∀ (L : List (List Nat)) (k i : Nat),
    (i ∈ (L.take k).flatten ↔ ∃ j, j < k ∧ ∃ g, L.get? j = some g ∧ i ∈ g) := by
  intro L
  induction L with
  | nil =>
    intro k i
    simp
  | cons g L ih =>
    intro k i
    match k with
    | 0 => simp
    | k + 1 =>
      rw [List.take_succ_cons, List.flatten_cons, List.mem_append, ih k i]
      constructor
      · rintro (h | ⟨j, hj, g', hg', hi⟩)
        · exact ⟨0, Nat.succ_pos k, g, rfl, h⟩
        · exact ⟨j + 1, Nat.succ_lt_succ hj, g', hg', hi⟩
      · rintro ⟨j, hj, g', hg', hi⟩
        match j with
        | 0 =>
          rw [List.get?_cons_zero] at hg'
          cases hg'
          exact Or.inl hi
        | j + 1 =>
          rw [List.get?_cons_succ] at hg'
          exact Or.inr ⟨j, Nat.lt_of_succ_lt_succ hj, g', hg', hi⟩

/-- Claim-level heads property: cluster `k` opens with the first input id not
covered by the clusters before it. -/
lemma idClusters_heads (nodes : List NodeRec) {k : Nat} {g : List Nat}
    (hg : (idClusters nodes).get? k = some g) :
    ∃ r s, g = r :: s ∧
      (inputIds nodes).find? (fun i =>
        decide (i ∉ ((idClusters nodes).take k).flatten)) = some r := by
  have hf : 0 < clusterFuel nodes := by
    rw [clusterFuel]
    exact Nat.succ_pos _
  obtain ⟨r, s, hgs, hfind⟩ :=
    groupLoop_heads (adjOf nodes) hf (inputIds nodes) [] k g hg
  refine ⟨r, s, hgs, ?_⟩
  rw [← hfind]
  congr 1

lemma mem_map_swap {l : List (Nat × Nat)} {a b : Nat} :
    (a, b) ∈ l.map (fun e => (e.2, e.1)) ↔ (b, a) ∈ l := by
  rw [List.mem_map]
  constructor
  · rintro ⟨e, he, hab⟩
    cases hab
    rwa [← Prod.eta e] at he
  · intro h
    exact ⟨(b, a), h, rfl⟩

/-- Runs over the same id sequence with the same adjacency relation emit the
same clusters as sets, in the same order. -/
lemma idClusters_congr (nodes nodes' : List NodeRec)
    (hids : inputIds nodes' = inputIds nodes)
    (hadj : ∀ x y, y ∈ adjOf nodes' x ↔ y ∈ adjOf nodes x) :
    (idClusters nodes').map List.toFinset = (idClusters nodes).map List.toFinset := by
  have hreach : ∀ x y, Reach (adjOf nodes') x y ↔ Reach (adjOf nodes) x y :=
    fun x y => reach_congr hadj
  obtain ⟨hndA, hflatA, hmemA, hgrpA⟩ := idClusters_spec nodes
  obtain ⟨hndB, hflatB, hmemB, hgrpB⟩ := idClusters_spec nodes'
  have key : ∀ k, ((idClusters nodes').get? k).map List.toFinset =
      ((idClusters nodes).get? k).map List.toFinset := by
    intro k
    induction k using Nat.strong_induction_on with
    | _ k ih =>
    have htake : ∀ i, i ∈ ((idClusters nodes').take k).flatten ↔
        i ∈ ((idClusters nodes).take k).flatten := by
      intro i
      rw [mem_flatten_take, mem_flatten_take]
      constructor
      · rintro ⟨j, hj, g, hg, hi⟩
        have hmap := ih j hj
        rw [hg] at hmap
        cases hA : (idClusters nodes).get? j with
        | none =>
          rw [hA] at hmap
          simp at hmap
        | some gA =>
          rw [hA] at hmap
          simp only [Option.map_some'] at hmap
          have hset : g.toFinset = gA.toFinset := Option.some.inj hmap
          refine ⟨j, hj, gA, hA, ?_⟩
          have := List.mem_toFinset.mpr hi
          rw [hset] at this
          exact List.mem_toFinset.mp this
      · rintro ⟨j, hj, g, hg, hi⟩
        have hmap := ih j hj
        rw [hg] at hmap
        cases hB : (idClusters nodes').get? j with
        | none =>
          rw [hB] at hmap
          simp at hmap
        | some gB =>
          rw [hB] at hmap
          simp only [Option.map_some'] at hmap
          have hset : gB.toFinset = g.toFinset := Option.some.inj hmap
          refine ⟨j, hj, gB, hB, ?_⟩
          have := List.mem_toFinset.mpr hi
          rw [← hset] at this
          exact List.mem_toFinset.mp this
    cases hA : (idClusters nodes).get? k with
    | none =>
      cases hB : (idClusters nodes').get? k with
      | none => simp
      | some gB =>
        exfalso
        obtain ⟨r, s, hgs, hfind⟩ := idClusters_heads nodes' hB
        have hrmem : r ∈ inputIds nodes' := List.mem_of_find?_eq_some hfind
        have hrpred := List.find?_some hfind
        rw [decide_eq_true_eq] at hrpred
        have hlen : (idClusters nodes).length ≤ k := List.get?_eq_none.mp hA
        have hrA : r ∈ ((idClusters nodes).take k).flatten := by
          rw [List.take_of_length_le hlen, hflatA]
          exact visitOrder_covers nodes r (hids ▸ hrmem)
        exact hrpred ((htake r).mpr hrA)
    | some gA =>
      cases hB : (idClusters nodes').get? k with
      | none =>
        exfalso
        obtain ⟨r, s, hgs, hfind⟩ := idClusters_heads nodes hA
        have hrmem : r ∈ inputIds nodes := List.mem_of_find?_eq_some hfind
        have hrpred := List.find?_some hfind
        rw [decide_eq_true_eq] at hrpred
        have hlen : (idClusters nodes').length ≤ k := List.get?_eq_none.mp hB
        have hrB : r ∈ ((idClusters nodes').take k).flatten := by
          rw [List.take_of_length_le hlen, hflatB]
          exact visitOrder_covers nodes' r (hids ▸ hrmem)
        exact hrpred ((htake r).mp hrB)
      | some gB =>
        obtain ⟨rA, sA, hgsA, hfindA⟩ := idClusters_heads nodes hA
        obtain ⟨rB, sB, hgsB, hfindB⟩ := idClusters_heads nodes' hB
        have hpred : (fun i => decide (i ∉ ((idClusters nodes').take k).flatten)) =
            (fun i => decide (i ∉ ((idClusters nodes).take k).flatten)) := by
          funext i
          rw [decide_eq_decide]
          exact not_congr (htake i)
        have hrBA : rB = rA := by
          rw [hids, hpred, hfindA] at hfindB
          exact (Option.some.inj hfindB).symm
        obtain ⟨rA', sA', hgsA', _, hiffA⟩ := hgrpA gA (List.get?_mem hA)
        obtain ⟨rB', sB', hgsB', _, hiffB⟩ := hgrpB gB (List.get?_mem hB)
        have hrA' : rA' = rA := by
          rw [hgsA] at hgsA'
          exact (List.cons.injEq _ _ _ _ ▸ hgsA').1.symm
        have hrB' : rB' = rB := by
          rw [hgsB] at hgsB'
          exact (List.cons.injEq _ _ _ _ ▸ hgsB').1.symm
        simp only [Option.map_some', Option.some.injEq]
        ext i
        rw [List.mem_toFinset, List.mem_toFinset, hiffB i, hiffA i, hrB', hrA', hrBA]
        exact hreach rA i
  refine List.ext_get? ?_
  intro k
  rw [List.get?_map, List.get?_map]
  exact key k

lemma sym_adjOf (nodes : List NodeRec) : Sym (adjOf nodes) :=
  sym_neighbors (edgesOf nodes)

lemma mem_lookup_group {nodes : List NodeRec}
    (hnd : (inputIds nodes).Nodup)
    (hin : ∀ n ∈ nodes, ∀ t ∈ n.conns, t ∈ inputIds nodes)
    {gid : List Nat} (hgid : gid ∈ idClusters nodes) {a : NodeRec} (ha : a ∈ nodes) :
    a ∈ gid.map (lookupD nodes) ↔ a.id ∈ gid := by
  have hsub : ∀ i ∈ gid, i ∈ inputIds nodes := by
    intro i hi
    have hfl : i ∈ (idClusters nodes).flatten := List.mem_flatten.mpr ⟨gid, hgid, hi⟩
    rw [(idClusters_spec nodes).2.1] at hfl
    exact visitOrder_subset nodes hin i hfl
  constructor
  · intro h
    obtain ⟨i, hi, hia⟩ := List.mem_map.mp h
    obtain ⟨n, hn, hni⟩ := List.mem_map.mp (hsub i hi)
    have hsome : (nodeMapFind nodes i).isSome = true := nodeMapFind_isSome ⟨n, hn, hni⟩
    have hid : a.id = i := by
      rw [← hia]
      exact (lookupD_id hsome).1
    rwa [hid]
  · intro h
    exact List.mem_map.mpr ⟨a.id, h, lookupD_self hnd ha⟩

lemma mapped_toFinset (nodes : List NodeRec)
    (hin : ∀ n ∈ nodes, ∀ t ∈ n.conns, t ∈ inputIds nodes) :
    ((idClusters nodes).map (fun g => g.map (lookupD nodes))).map
        (fun g => (g.map (fun n => n.id)).toFinset) =
      (idClusters nodes).map List.toFinset := by
  rw [List.map_map]
  refine List.map_congr_left ?_
  intro gid hgid
  simp only [Function.comp_apply, List.map_map]
  congr 1
  have hsub : ∀ i ∈ gid, i ∈ inputIds nodes := by
    intro i hi
    have hfl : i ∈ (idClusters nodes).flatten := List.mem_flatten.mpr ⟨gid, hgid, hi⟩
    rw [(idClusters_spec nodes).2.1] at hfl
    exact visitOrder_subset nodes hin i hfl
  have hpt : ∀ i ∈ gid, ((fun n => n.id) ∘ lookupD nodes) i = id i := by
    intro i hi
    obtain ⟨n, hn, hni⟩ := List.mem_map.mp (hsub i hi)
    exact (lookupD_id (nodeMapFind_isSome ⟨n, hn, hni⟩)).1
  rw [List.map_congr_left hpt, List.map_id]

/-- Claim C5: two nodes land in the same cluster exactly when an undirected
path of connections joins them; the id-partition is unchanged when every edge
is reversed; and a node with no incident connection forms a singleton
cluster. -/
theorem c5_connectivity (nodes : List NodeRec)
    (hnd : (inputIds nodes).Nodup)
    (hin : ∀ n ∈ nodes, ∀ t ∈ n.conns, t ∈ inputIds nodes) :
    ∃ gs, group_nodes_by_relevance nodes = some gs ∧
      (∀ a ∈ nodes, ∀ b ∈ nodes,
        ((∃ g ∈ gs, a ∈ g ∧ b ∈ g) ↔ Reach (adjOf nodes) a.id b.id)) ∧
      (∀ nodes', inputIds nodes' = inputIds nodes →
        edgesOf nodes' = (edgesOf nodes).map (fun e => (e.2, e.1)) →
        (group_nodes_by_relevance nodes').map
            (fun gs' => gs'.map (fun g => (g.map (fun n => n.id)).toFinset)) =
          some (gs.map (fun g => (g.map (fun n => n.id)).toFinset))) ∧
      (∀ a ∈ nodes, (∀ e ∈ edgesOf nodes, e.1 ≠ a.id ∧ e.2 ≠ a.id) →
        ∃ g ∈ gs, g = [a]) := by
  obtain ⟨hnodup, hflat, hmem, hgrp⟩ := idClusters_spec nodes
  refine ⟨(idClusters nodes).map (fun g => g.map (lookupD nodes)),
    group_nodes_eq_some nodes hin, ?_, ?_, ?_⟩
  · intro a ha b hb
    constructor
    · rintro ⟨g, hgmem, hag, hbg⟩
      obtain ⟨gid, hgid, rfl⟩ := List.mem_map.mp hgmem
      rw [mem_lookup_group hnd hin hgid ha] at hag
      rw [mem_lookup_group hnd hin hgid hb] at hbg
      obtain ⟨r, s, hgs, hrin, hiff⟩ := hgrp gid hgid
      exact reach_trans (reach_symm (sym_adjOf nodes) ((hiff a.id).mp hag))
        ((hiff b.id).mp hbg)
    · intro hr
      have haid : a.id ∈ visitOrder nodes :=
        visitOrder_covers nodes a.id (List.mem_map.mpr ⟨a, ha, rfl⟩)
      rw [← hflat] at haid
      obtain ⟨gid, hgid, haidg⟩ := List.mem_flatten.mp haid
      obtain ⟨r, s, hgs, hrin, hiff⟩ := hgrp gid hgid
      have hrb : Reach (adjOf nodes) r b.id :=
        reach_trans ((hiff a.id).mp haidg) hr
      refine ⟨gid.map (lookupD nodes), List.mem_map.mpr ⟨gid, hgid, rfl⟩, ?_, ?_⟩
      · exact (mem_lookup_group hnd hin hgid ha).mpr haidg
      · exact (mem_lookup_group hnd hin hgid hb).mpr ((hiff b.id).mpr hrb)
  · intro nodes' hids hedges
    have hin' : ∀ n ∈ nodes', ∀ t ∈ n.conns, t ∈ inputIds nodes' := by
      intro n hn t ht
      have hedge : (n.id, t) ∈ edgesOf nodes' := mem_edgesOf.mpr ⟨n, hn, rfl, ht⟩
      rw [hedges] at hedge
      obtain ⟨m, hm, hmid, _⟩ := mem_edgesOf.mp (mem_map_swap.mp hedge)
      rw [hids, ← hmid]
      exact List.mem_map.mpr ⟨m, hm, rfl⟩
    have hadj : ∀ x y, y ∈ adjOf nodes' x ↔ y ∈ adjOf nodes x := by
      intro x y
      rw [adjOf, adjOf, mem_neighbors, mem_neighbors, hedges,
        mem_map_swap, mem_map_swap]
      exact or_comm
    rw [group_nodes_eq_some nodes' hin', Option.map_some', mapped_toFinset nodes' hin',
      mapped_toFinset nodes hin, idClusters_congr nodes nodes' hids hadj]
  · intro a ha hiso
    have hreach_iff : ∀ y, Reach (adjOf nodes) a.id y → y = a.id := by
      intro y hr
      induction hr with
      | refl => rfl
      | tail hprev hstep ih =>
        rename_i b c
        rw [ih] at hstep
        rw [Step, adjOf, mem_neighbors] at hstep
        rcases hstep with h | h
        · exact absurd rfl (hiso _ h).1
        · exact absurd rfl (hiso _ h).2
    have haid : a.id ∈ visitOrder nodes :=
      visitOrder_covers nodes a.id (List.mem_map.mpr ⟨a, ha, rfl⟩)
    rw [← hflat] at haid
    obtain ⟨gid, hgid, haidg⟩ := List.mem_flatten.mp haid
    obtain ⟨r, s, hgs, hrin, hiff⟩ := hgrp gid hgid
    have hr_eq : r = a.id :=
      hreach_iff r (reach_symm (sym_adjOf nodes) ((hiff a.id).mp haidg))
    have hnd_gid : gid.Nodup :=
      (List.nodup_flatten.mp (hflat ▸ hnodup)).1 gid hgid
    have hs_nil : s = [] := by
      rw [List.eq_nil_iff_forall_not_mem]
      intro y hy
      have hyg : y ∈ gid := by
        rw [hgs]
        exact List.mem_cons.mpr (Or.inr hy)
      have hya : y = a.id := hreach_iff y (by
        have := (hiff y).mp hyg
        rwa [hr_eq] at this)
      rw [hgs, hr_eq] at hnd_gid
      rw [hya] at hy
      exact (List.nodup_cons.mp hnd_gid).1 hy
    have hgid_single : gid = [a.id] := by
      rw [hgs, hr_eq, hs_nil]
    refine ⟨gid.map (lookupD nodes), List.mem_map.mpr ⟨gid, hgid, rfl⟩, ?_⟩
    rw [hgid_single, List.map_singleton, lookupD_self hnd ha]

/-- Claim C5, witness: the four-node two-edge scenario. -/
theorem c5_connectivity_witness :
    ∃ gs, group_nodes_by_relevance
        [⟨1, 1, "node1", none, [2]⟩, ⟨2, 1, "node2", none, []⟩,
          ⟨3, 1, "node3", none, [4]⟩, ⟨4, 1, "node4", none, []⟩] = some gs ∧
      (∀ a ∈ [⟨1, 1, "node1", none, [2]⟩, ⟨2, 1, "node2", none, []⟩,
          ⟨3, 1, "node3", none, [4]⟩, (⟨4, 1, "node4", none, []⟩ : NodeRec)],
        ∀ b ∈ [⟨1, 1, "node1", none, [2]⟩, ⟨2, 1, "node2", none, []⟩,
          ⟨3, 1, "node3", none, [4]⟩, (⟨4, 1, "node4", none, []⟩ : NodeRec)],
        ((∃ g ∈ gs, a ∈ g ∧ b ∈ g) ↔
          Reach (adjOf [⟨1, 1, "node1", none, [2]⟩, ⟨2, 1, "node2", none, []⟩,
            ⟨3, 1, "node3", none, [4]⟩, ⟨4, 1, "node4", none, []⟩]) a.id b.id)) ∧
      (∀ nodes', inputIds nodes' = inputIds
          [⟨1, 1, "node1", none, [2]⟩, ⟨2, 1, "node2", none, []⟩,
            ⟨3, 1, "node3", none, [4]⟩, ⟨4, 1, "node4", none, []⟩] →
        edgesOf nodes' = (edgesOf [⟨1, 1, "node1", none, [2]⟩, ⟨2, 1, "node2", none, []⟩,
            ⟨3, 1, "node3", none, [4]⟩, ⟨4, 1, "node4", none, []⟩]).map (fun e => (e.2, e.1)) →
        (group_nodes_by_relevance nodes').map
            (fun gs' => gs'.map (fun g => (g.map (fun n => n.id)).toFinset)) =
          some (gs.map (fun g => (g.map (fun n => n.id)).toFinset))) ∧
      (∀ a ∈ [⟨1, 1, "node1", none, [2]⟩, ⟨2, 1, "node2", none, []⟩,
          ⟨3, 1, "node3", none, [4]⟩, (⟨4, 1, "node4", none, []⟩ : NodeRec)],
        (∀ e ∈ edgesOf [⟨1, 1, "node1", none, [2]⟩, ⟨2, 1, "node2", none, []⟩,
            ⟨3, 1, "node3", none, [4]⟩, ⟨4, 1, "node4", none, []⟩],
          e.1 ≠ a.id ∧ e.2 ≠ a.id) →
        ∃ g ∈ gs, g = [a]) :=
  c5_connectivity
    [⟨1, 1, "node1", none, [2]⟩, ⟨2, 1, "node2", none, []⟩,
      ⟨3, 1, "node3", none, [4]⟩, ⟨4, 1, "node4", none, []⟩]
    (by decide) (by decide)

lemma mapLookup_ids {nodes : List NodeRec} :
    ∀ {l : List Nat} {r : List NodeRec}, mapLookup nodes l = some r →
      r.map (fun n => n.id) = l := by
  intro l
  induction l with
  | nil =>
    intro r h
    cases h
    rfl
  | cons i rest ih =>
    intro r h
    rw [mapLookup] at h
    cases hf : nodeMapFind nodes i with
    | none =>
      rw [hf] at h
      cases h
    | some n =>
      rw [hf] at h
      cases hr : mapLookup nodes rest with
      | none =>
        rw [hr] at h
        cases h
      | some r' =>
        rw [hr] at h
        simp only [Option.map_some'] at h
        cases h
        simp [ih hr, (nodeMapFind_mem hf).2]

lemma groupsLookup_ids {nodes : List NodeRec} :
    ∀ {gsIds : List (List Nat)} {rs : List (List NodeRec)},
      groupsLookup nodes gsIds = some rs →
      rs.map (fun g => g.map (fun n => n.id)) = gsIds := by
  intro gsIds
  induction gsIds with
  | nil =>
    intro rs h
    cases h
    rfl
  | cons g rest ih =>
    intro rs h
    rw [groupsLookup] at h
    cases hm : mapLookup nodes g with
    | none =>
      rw [hm] at h
      cases h
    | some g' =>
      rw [hm] at h
      cases hr : groupsLookup nodes rest with
      | none =>
        rw [hr] at h
        cases h
      | some rs' =>
        rw [hr] at h
        simp only [Option.map_some'] at h
        cases h
        simp [ih hr, mapLookup_ids hm]

/-- Claim C6: the clusters, concatenated, list the nodes in the traversal's
first-visit order; each cluster opens with the first input node not contained
in the clusters emitted before it; and the four-node scenario with edges
`1→2` and `3→4` yields exactly the clusters `[1,2]` and `[3,4]` in that
order. -/
theorem c6_order (nodes : List NodeRec) (gs : List (List NodeRec))
    (h : group_nodes_by_relevance nodes = some gs) :
    ((gs.map (fun g => g.map (fun n => n.id))).flatten = visitOrder nodes) ∧
    (∀ k g, gs.get? k = some g → ∃ m s, g = m :: s ∧
      (inputIds nodes).find? (fun i =>
        decide (i ∉ ((gs.take k).map (fun g => g.map (fun n => n.id))).flatten)) =
        some m.id) ∧
    group_nodes_by_relevance
        [⟨1, 1, "node1", none, [2]⟩, ⟨2, 1, "node2", none, []⟩,
          ⟨3, 1, "node3", none, [4]⟩, ⟨4, 1, "node4", none, []⟩] =
      some [[⟨1, 1, "node1", none, [2]⟩, ⟨2, 1, "node2", none, []⟩],
        [⟨3, 1, "node3", none, [4]⟩, ⟨4, 1, "node4", none, []⟩]] := by
  have hids : gs.map (fun g => g.map (fun n => n.id)) = idClusters nodes := by
    rw [group_nodes_by_relevance] at h
    exact groupsLookup_ids h
  refine ⟨?_, ?_, rfl⟩
  · rw [hids]
    exact (idClusters_spec nodes).2.1
  · intro k g hg
    have hgity : (idClusters nodes).get? k = some (g.map (fun n => n.id)) := by
      rw [← hids, List.get?_map, hg]
      rfl
    obtain ⟨r, s', hgs, hfind⟩ := idClusters_heads nodes hgity
    cases g with
    | nil => simp at hgs
    | cons m s =>
      refine ⟨m, s, rfl, ?_⟩
      have hmid : m.id = r := by
        simp only [List.map_cons] at hgs
        exact (List.cons.injEq _ _ _ _ ▸ hgs).1
      rw [hmid, ← hfind]
      congr 1
      funext i
      rw [decide_eq_decide]
      rw [← hids, List.map_take]

/-- Claim C6, witness: the four-node scenario instantiation. -/
theorem c6_order_witness :
    (([[⟨1, 1, "node1", none, [2]⟩, ⟨2, 1, "node2", none, []⟩],
        [⟨3, 1, "node3", none, [4]⟩,
          (⟨4, 1, "node4", none, []⟩ : NodeRec)]].map
        (fun g => g.map (fun n => n.id))).flatten =
      visitOrder [⟨1, 1, "node1", none, [2]⟩, ⟨2, 1, "node2", none, []⟩,
        ⟨3, 1, "node3", none, [4]⟩, ⟨4, 1, "node4", none, []⟩]) ∧
    (∀ k g, [[⟨1, 1, "node1", none, [2]⟩, ⟨2, 1, "node2", none, []⟩],
        [⟨3, 1, "node3", none, [4]⟩,
          (⟨4, 1, "node4", none, []⟩ : NodeRec)]].get? k = some g →
      ∃ m s, g = m :: s ∧
      (inputIds [⟨1, 1, "node1", none, [2]⟩, ⟨2, 1, "node2", none, []⟩,
          ⟨3, 1, "node3", none, [4]⟩, ⟨4, 1, "node4", none, []⟩]).find? (fun i =>
        decide (i ∉ (([[⟨1, 1, "node1", none, [2]⟩, ⟨2, 1, "node2", none, []⟩],
            [⟨3, 1, "node3", none, [4]⟩,
              (⟨4, 1, "node4", none, []⟩ : NodeRec)]].take k).map
            (fun g => g.map (fun n => n.id))).flatten)) = some m.id) ∧
    group_nodes_by_relevance
        [⟨1, 1, "node1", none, [2]⟩, ⟨2, 1, "node2", none, []⟩,
          ⟨3, 1, "node3", none, [4]⟩, ⟨4, 1, "node4", none, []⟩] =
      some [[⟨1, 1, "node1", none, [2]⟩, ⟨2, 1, "node2", none, []⟩],
        [⟨3, 1, "node3", none, [4]⟩, ⟨4, 1, "node4", none, []⟩]] :=
  c6_order
    [⟨1, 1, "node1", none, [2]⟩, ⟨2, 1, "node2", none, []⟩,
      ⟨3, 1, "node3", none, [4]⟩, ⟨4, 1, "node4", none, []⟩]
    [[⟨1, 1, "node1", none, [2]⟩, ⟨2, 1, "node2", none, []⟩],
      [⟨3, 1, "node3", none, [4]⟩, ⟨4, 1, "node4", none, []⟩]]
    rfl

end WhiteboardAI
